import Mathlib

/-!
# Knight's tour search of `main.c`

A shallow embedding of the search core of `main.c` (the functions from
`checkValid` down to `resetBoardAndSteps`) and proofs about it.

Conventions of the embedding:

* C `int` values are mathematical integers (`Int`).  Signed overflow is undefined
  in C, so nothing is claimed about boards whose area does not fit an `int`.
  The one sum that depends on an argument ranging over all `int`s, the sum
  `fieldNumber + modifier` of `getFieldByNumber`, is reduced to 32 bits (`wrapInt`),
  as the usual targets compute it.
* The global variables `sizeX`, `sizeY`, `board` and `steps` form the record
  `Globals`, which every function receives and (when it writes) returns.
  The two heap blocks are lists, addressed by the same offset
  `pos.y*sizeX + pos.x` as in the source.
* `exit(1)` in `addStepToSteps` is the error `Err.exited`.
* The recursion of `backTrackingAlgorithm` is bounded by a fuel argument that is
  the permitted nesting depth of calls; running out is the error `Err.outOfFuel`.
  With fuel `0` not a single call of `backTrackingAlgorithm` can be made.
* `qsort` belongs to the C library, not to the program.  The embedding takes the
  effect of `qsort(followingSteps, 8, sizeof(extCoord), compare)` on the array as
  a parameter `qsort : List extCoord → List extCoord`; the theorems assume only
  that it rearranges the array (its result is a permutation of its argument).
  The one theorem on the order of the recursive calls assumes in addition that
  neighbouring elements of the result are in the order of `compare`.
* In `compare` the values of type `double` are rationals: halves, squares, sums
  and differences are taken exactly, `sqrt` of the C library is a parameter, and
  the `int` returned for a `double` is its truncation towards zero.
* `backTrackingAlgorithmLogged` is `backTrackingAlgorithm` yielding in addition the
  calls of `setFieldVal` and `addStepToSteps` it makes; it is proved to compute
  the same result.
-/

namespace Springer

/-! ## Data model -/

/-- A square of the board (`coord` of the source). -/
structure coord where
  x : Int
  y : Int
deriving DecidableEq

/-- A candidate square with its onward count (`extCoord` of the source). -/
structure extCoord where
  position : coord
  possibleSteps : Int
deriving DecidableEq

/-- The global variables `sizeX`, `sizeY`, `board`, `steps` of the source. -/
structure Globals where
  sizeX : Int
  sizeY : Int
  board : List Bool
  steps : List Int
deriving DecidableEq

/-- The ways a run can stop without returning. -/
inductive Err where
  | outOfFuel
  | exited
deriving DecidableEq

/-- The constant `invalid` of the source: the "no destination" sentinel. -/
def invalid : coord := ⟨-1, -1⟩

/-- Read `*(mem + i)`.  Reads outside the block yield the default value. -/
def load {α : Type} [Inhabited α] (mem : List α) (i : Int) : α :=
  if 0 ≤ i then mem.getD i.toNat default else default

/-- Write `*(mem + i) = v`.  Writes outside the block leave it unchanged. -/
def store {α : Type} (mem : List α) (i : Int) (v : α) : List α :=
  if 0 ≤ i then mem.set i.toNat v else mem

/-- The offset `pos.y*sizeX + pos.x` used for both heap blocks. -/
def cellIndex (g : Globals) (pos : coord) : Int :=
  pos.y * g.sizeX + pos.x

/-! ## Board state -/

/-- Source lines 38-40. -/
def checkValid (g : Globals) (pos : coord) : Bool :=
  decide (pos.x < g.sizeX) && decide (pos.y < g.sizeY) && decide (pos.x ≥ 0) && decide (pos.y ≥ 0)

/-- Source lines 47-53. -/
def getFieldVal (g : Globals) (pos : coord) : Bool :=
  if checkValid g pos then load g.board (cellIndex g pos) else true

/-- Source lines 60-62. -/
def setFieldVal (g : Globals) (pos : coord) (val : Bool) : Globals :=
  { g with board := store g.board (cellIndex g pos) val }

/-! ## Move generator -/

/-- The value that the sum of two `int`s has in the program: the 32-bit two's complement
number congruent to the exact sum, which is the exact sum whenever that fits an `int`. -/
def wrapInt (n : Int) : Int :=
  (n + 2147483648) % 4294967296 - 2147483648

/-- Source lines 73-111.  `%` of C truncates towards zero, which is `Int.tmod`; the sum of
line 74 is a sum of `int`s, which wraps for a modifier within 7 of the largest `int`. -/
def getFieldByNumber (pos : coord) (fieldNumber modifier : Int) : coord :=
  let fieldNumber := Int.tmod (wrapInt (fieldNumber + modifier)) 8
  let fieldNumber := if modifier ≥ 8 then Int.tmod (fieldNumber + 4) 8 else fieldNumber
  if fieldNumber = 0 then ⟨pos.x + 2, pos.y + 1⟩
  else if fieldNumber = 1 then ⟨pos.x + 2, pos.y - 1⟩
  else if fieldNumber = 2 then ⟨pos.x - 2, pos.y + 1⟩
  else if fieldNumber = 3 then ⟨pos.x - 2, pos.y - 1⟩
  else if fieldNumber = 4 then ⟨pos.x + 1, pos.y + 2⟩
  else if fieldNumber = 5 then ⟨pos.x + 1, pos.y - 2⟩
  else if fieldNumber = 6 then ⟨pos.x - 1, pos.y + 2⟩
  else if fieldNumber = 7 then ⟨pos.x - 1, pos.y - 2⟩
  else pos

/-! ## Step recording and onward count -/

/-- Source lines 120-127. -/
def addStepToSteps (g : Globals) (pos : coord) (step : Int) : Except Err (Bool × Globals) :=
  if step < g.sizeX * g.sizeY then
    .ok (true, { g with steps := store g.steps (cellIndex g pos) step })
  else
    .error .exited

/-- Source lines 135-145. -/
def countPossibleSteps (g : Globals) (initial : coord) : Int :=
  (List.range 8).foldl
    (fun (result : Int) (i : Nat) =>
      let buffer := getFieldByNumber initial (i : Int) 0
      if !getFieldVal g buffer then result + 1 else result)
    0

/-! ## Search engine -/

/-- The loop of source lines 186-193: does some `i < 8` pass the test of line 188? -/
def reachesFinal (pos final : coord) : Bool :=
  (List.range 8).any fun (i : Nat) =>
    let buffer := getFieldByNumber pos (i : Int) 0
    (decide (buffer.x = final.x) && decide (buffer.y = final.y))
      || (decide (final.x = -1) && decide (final.y = -1))

/-- The initialiser and the loop of source lines 198-214: slot `i` of `followingSteps`. -/
def followingStep (g : Globals) (pos : coord) (modifier : Int) (i : Nat) : extCoord :=
  let buffer := getFieldByNumber pos (i : Int) modifier
  if !getFieldVal g buffer then
    { position := buffer, possibleSteps := countPossibleSteps g buffer }
  else
    { position := ⟨0, 0⟩, possibleSteps := -1 }

/-- The loop of source lines 220-231 over the sorted array, `call` being the recursive
call of line 222 (with `final`, `counter + 1` and `modifier` already supplied). -/
def tryFollowingSteps (call : Globals → coord → Except Err (Bool × Globals))
    (pos : coord) (counter : Int) : Globals → List extCoord → Except Err (Bool × Globals)
  | g, [] => .ok (false, setFieldVal g pos false)
  | g, c :: rest =>
    if c.possibleSteps ≠ -1 then
      match call g c.position with
      | .error e => .error e
      | .ok (true, g') => addStepToSteps g' pos counter
      | .ok (false, g') => tryFollowingSteps call pos counter g' rest
    else
      tryFollowingSteps call pos counter g rest

/-- Source lines 182-232. -/
def backTrackingAlgorithm (qsort : List extCoord → List extCoord) :
    Nat → Globals → coord → coord → Int → Int → Except Err (Bool × Globals)
  | 0, _, _, _, _, _ => .error .outOfFuel
  | fuel + 1, g, pos, final, counter, modifier =>
    let g := setFieldVal g pos true
    if counter = g.sizeX * g.sizeY - 1 then
      if reachesFinal pos final then
        addStepToSteps g pos counter
      else
        .ok (false, setFieldVal g pos false)
    else
      let followingSteps := (List.range 8).map (followingStep g pos modifier)
      tryFollowingSteps
        (fun g' next => backTrackingAlgorithm qsort fuel g' next final (counter + 1) modifier)
        pos counter g (qsort followingSteps)

/-- Source lines 242-256. -/
def backTracking (qsort : List extCoord → List extCoord) (fuel : Nat) (g : Globals)
    (initial final : coord) : Except Err (Bool × Globals) :=
  backTrackingAlgorithm qsort fuel g initial final 0 0

/-! ## Feasibility pre-checks and entry points -/

/-- Source lines 265-271 (the message printed on rejection is not modelled). -/
def startBackTracking (qsort : List extCoord → List extCoord) (fuel : Nat) (g : Globals)
    (initial : coord) : Except Err (Bool × Globals) :=
  if (Int.tmod g.sizeX 2 ≠ 0 ∧ Int.tmod g.sizeY 2 ≠ 0) ∧ Int.tmod (initial.x + initial.y) 2 ≠ 0 then
    .ok (false, g)
  else
    backTracking qsort fuel g initial invalid

/-- Source lines 280-288 (the message printed on rejection is not modelled). -/
def startBackTrackingClosed (qsort : List extCoord → List extCoord) (fuel : Nat) (g : Globals)
    (initial : coord) : Except Err (Bool × Globals) :=
  if (Int.tmod g.sizeX 2 ≠ 0 ∧ Int.tmod g.sizeY 2 ≠ 0) ∨ (g.sizeX = 1 ∨ g.sizeX = 2 ∨ g.sizeX = 4)
      ∨ (g.sizeX = 3 ∧ (g.sizeY = 4 ∨ g.sizeY = 6 ∨ g.sizeY = 8)) then
    .ok (false, g)
  else
    backTracking qsort fuel g initial initial

/-- Source lines 295-298, for the dimensions set by `setupBoardSize`. -/
def resetBoardAndSteps (sizeX sizeY : Int) : Globals :=
  { sizeX := sizeX, sizeY := sizeY,
    board := List.replicate (sizeX * sizeY).toNat false,
    steps := List.replicate (sizeX * sizeY).toNat 0 }

/-! ## Specification vocabulary -/

/-- Two squares are a knight move apart: `(|dx|,|dy|)` is `(1,2)` or `(2,1)`. -/
def knightMove (a b : coord) : Prop :=
  ((b.x - a.x).natAbs = 1 ∧ (b.y - a.y).natAbs = 2)
    ∨ ((b.x - a.x).natAbs = 2 ∧ (b.y - a.y).natAbs = 1)

instance (a b : coord) : Decidable (knightMove a b) := by
  unfold knightMove; infer_instance

/-- The visit order recorded for a square: `*(steps + pos.y*sizeX + pos.x)`, as read by
`printSteps`. -/
def stepAt (g : Globals) (pos : coord) : Int :=
  load g.steps (cellIndex g pos)

/-- Both heap blocks have the `sizeX * sizeY` cells that `resetBoardAndSteps` allocates. -/
def WellSized (g : Globals) : Prop :=
  g.board.length = (g.sizeX * g.sizeY).toNat ∧ g.steps.length = (g.sizeX * g.sizeY).toNat

/-- Number of cells of the board that are not marked visited. -/
def unvisited (g : Globals) : Nat :=
  g.board.count false

/-- The end condition of a tour: the last square is a knight move from `final`, or there
is no destination constraint. -/
def finalOK (final last : coord) : Prop :=
  knightMove last final ∨ final = invalid

/-- The squares `pos :: rest` are successively a knight move apart and the last one meets
the end condition. -/
def IsPath (final : coord) : coord → List coord → Prop
  | pos, [] => finalOK final pos
  | pos, next :: rest => knightMove pos next ∧ IsPath final next rest

/-- The sequence `pos :: rest` completes a tour from the state `g`: it is a knight path ending
as `final` requires, and consists of exactly the unvisited squares, each once. -/
def Completes (g : Globals) (pos final : coord) (rest : List coord) : Prop :=
  IsPath final pos rest
    ∧ (∀ p ∈ pos :: rest, checkValid g p = true ∧ getFieldVal g p = false)
    ∧ (pos :: rest).Nodup
    ∧ rest.length + 1 = unvisited g

/-- Some sequence completes a tour from `pos` in the state `g`. -/
def Extendable (g : Globals) (pos final : coord) : Prop :=
  ∃ rest, Completes g pos final rest

/-- What a successful call leaves behind: the tour it found, recorded in `steps` from
`counter` on, with every square of it marked visited. -/
def Success (g : Globals) (pos final : coord) (counter : Int) (g' : Globals) : Prop :=
  ∃ rest, Completes g pos final rest
    ∧ g'.sizeX = g.sizeX ∧ g'.sizeY = g.sizeY ∧ WellSized g'
    ∧ (∀ (k : Nat) (p : coord), (pos :: rest)[k]? = some p → stepAt g' p = counter + (k : Int))
    ∧ (∀ p, getFieldVal g p = true → getFieldVal g' p = true)
    ∧ (∀ p ∈ pos :: rest, getFieldVal g' p = true)

/-- The contract of one call of `backTrackingAlgorithm` with the given fuel. -/
def Post (fuel : Nat) (g : Globals) (pos final : coord) (counter : Int) :
    Except Err (Bool × Globals) → Prop
  | .error e => e = .outOfFuel ∧ fuel < unvisited g
  | .ok (false, g') => g' = g ∧ ¬ Extendable g pos final
  | .ok (true, g') => Success g pos final counter g'

/-- The contract of the loop over the sorted candidates, run from the state `g1` in which
`pos` is already marked. -/
def LoopPost (fuel : Nat) (g1 : Globals) (pos final : coord) (counter : Int)
    (cands : List extCoord) : Except Err (Bool × Globals) → Prop
  | .error e => e = .outOfFuel ∧ fuel < unvisited g1
  | .ok (false, g') => g' = setFieldVal g1 pos false
      ∧ ∀ c ∈ cands, c.possibleSteps ≠ -1 → ¬ Extendable g1 c.position final
  | .ok (true, g') => ∃ c ∈ cands, c.possibleSteps ≠ -1
      ∧ ∃ g2, Success g1 c.position final (counter + 1) g2
        ∧ g' = { g2 with steps := store g2.steps (cellIndex g2 pos) counter }

/-- A knight's tour of the whole board of `g`: a sequence of all `sizeX * sizeY` squares,
pairwise distinct, beginning at `start`, with consecutive squares a knight move apart and,
unless `target` is the sentinel, its last square a knight move from `target`. -/
def IsTour (g : Globals) (start target : coord) (tour : List coord) : Prop :=
  tour.length = (g.sizeX * g.sizeY).toNat
    ∧ tour.Nodup
    ∧ (∀ p ∈ tour, checkValid g p = true)
    ∧ tour.head? = some start
    ∧ tour.Chain' knightMove
    ∧ (target ≠ invalid → ∀ q, tour.getLast? = some q → knightMove q target)

/-- One move of the generator: `b` is `getFieldByNumber(a, i, 0)` for some `i` in `0 .. 7`. -/
def generatedMove (a b : coord) : Prop :=
  ∃ i : Nat, i < 8 ∧ getFieldByNumber a (i : Int) 0 = b

/-- An open tour of the board of `g` by generator moves: all `sizeX * sizeY` squares, pairwise
distinct, beginning at `start`, consecutive squares one generator move apart. -/
def IsOpenTour (g : Globals) (start : coord) (tour : List coord) : Prop :=
  tour.length = (g.sizeX * g.sizeY).toNat
    ∧ tour.Nodup
    ∧ (∀ p ∈ tour, checkValid g p = true)
    ∧ tour.head? = some start
    ∧ tour.Chain' generatedMove

/-- The colour of the cell at a given offset, as a sign: `1` on even offsets, `-1` on odd. -/
def cellSign (n : Nat) : Int :=
  if n % 2 = 0 then 1 else -1

/-- A stand-in for the library sort: insertion sort of the array by an integer key. -/
def sortByKey (key : extCoord → Int) (l : List extCoord) : List extCoord :=
  l.insertionSort (fun a b => key a ≤ key b)

/-- An open tour of the 3x4 board from the corner. -/
def tour3x4 : List coord :=
  [⟨0, 0⟩, ⟨1, 2⟩, ⟨2, 0⟩, ⟨0, 1⟩, ⟨1, 3⟩, ⟨2, 1⟩, ⟨0, 2⟩, ⟨2, 3⟩, ⟨1, 1⟩, ⟨0, 3⟩, ⟨2, 2⟩, ⟨1, 0⟩]

/-- An open tour of the 5x5 board from the corner. -/
def tour5x5 : List coord :=
  [⟨0, 0⟩, ⟨2, 1⟩, ⟨4, 0⟩, ⟨3, 2⟩, ⟨4, 4⟩, ⟨2, 3⟩, ⟨0, 4⟩, ⟨1, 2⟩, ⟨3, 3⟩, ⟨1, 4⟩, ⟨0, 2⟩,
   ⟨1, 0⟩, ⟨3, 1⟩, ⟨4, 3⟩, ⟨2, 4⟩, ⟨0, 3⟩, ⟨1, 1⟩, ⟨3, 0⟩, ⟨4, 2⟩, ⟨3, 4⟩, ⟨1, 3⟩, ⟨0, 1⟩,
   ⟨2, 2⟩, ⟨4, 1⟩, ⟨2, 0⟩]

/-- A closed tour of the 6x6 board from the corner. -/
def tour6x6 : List coord :=
  [⟨0, 0⟩, ⟨2, 1⟩, ⟨4, 0⟩, ⟨5, 2⟩, ⟨4, 4⟩, ⟨2, 5⟩, ⟨0, 4⟩, ⟨2, 3⟩, ⟨1, 5⟩, ⟨0, 3⟩, ⟨1, 1⟩,
   ⟨3, 0⟩, ⟨5, 1⟩, ⟨3, 2⟩, ⟨5, 3⟩, ⟨4, 5⟩, ⟨2, 4⟩, ⟨0, 5⟩, ⟨1, 3⟩, ⟨0, 1⟩, ⟨2, 0⟩, ⟨4, 1⟩,
   ⟨3, 3⟩, ⟨5, 4⟩, ⟨3, 5⟩, ⟨1, 4⟩, ⟨0, 2⟩, ⟨1, 0⟩, ⟨2, 2⟩, ⟨4, 3⟩, ⟨5, 5⟩, ⟨3, 4⟩, ⟨4, 2⟩,
   ⟨5, 0⟩, ⟨3, 1⟩, ⟨1, 2⟩]

/-- The globals after the tour `tour3x4` has been recorded. -/
def record3x4 : Globals :=
  { sizeX := 3, sizeY := 4, board := List.replicate 12 true,
    steps := [0, 11, 2, 3, 8, 5, 6, 1, 10, 9, 4, 7] }

/-- The globals after the tour `tour6x6` has been recorded. -/
def record6x6 : Globals :=
  { sizeX := 6, sizeY := 6, board := List.replicate 36 true,
    steps := [0, 27, 20, 11, 2, 33, 19, 10, 1, 34, 21, 12, 26, 35, 28, 13, 32, 3, 9, 18, 7, 22,
      29, 14, 6, 25, 16, 31, 4, 23, 17, 8, 5, 24, 15, 30] }

/-! ## Vocabulary for the move generator and the ranker -/

/-- The canonical offsets `base[0..7]` of the move generator, in the order of the
specification: `(2,1), (2,-1), (-2,1), (-2,-1), (1,2), (1,-2), (-1,2), (-1,-2)`. -/
def baseOffsets : List coord :=
  [⟨2, 1⟩, ⟨2, -1⟩, ⟨-2, 1⟩, ⟨-2, -1⟩, ⟨1, 2⟩, ⟨1, -2⟩, ⟨-1, 2⟩, ⟨-1, -2⟩]

/-- The square `pos + d`. -/
def translate (pos d : coord) : coord :=
  ⟨pos.x + d.x, pos.y + d.y⟩

/-- The offset `q - pos`. -/
def offsetFrom (pos q : coord) : coord :=
  ⟨q.x - pos.x, q.y - pos.y⟩

/-- The onward count in the words of the specification: the number of the eight knight
destinations of `sq` that are on-board and whose stored flag is unvisited. -/
def onwardCount (g : Globals) (sq : coord) : Nat :=
  baseOffsets.countP fun d =>
    checkValid g (translate sq d) && !(load g.board (cellIndex g (translate sq d)))

/-- The contract of one call of `backTrackingAlgorithm` in an arbitrary board state and with an
arbitrary `counter`: it fails only for want of fuel, a false result leaves the globals as they
were, and a true result comes with a `counter` that `addStepToSteps` accepts. -/
def GeneralPost (fuel : Nat) (g : Globals) (counter : Int) :
    Except Err (Bool × Globals) → Prop
  | .error e => e = .outOfFuel ∧ fuel < unvisited g
  | .ok (false, g') => g' = g
  | .ok (true, g') => counter < g.sizeX * g.sizeY ∧ g'.sizeX = g.sizeX ∧ g'.sizeY = g.sizeY
      ∧ g'.board.length = g.board.length

/-- The contract of the loop over the sorted candidates in an arbitrary board state. -/
def GeneralLoopPost (fuel : Nat) (g1 : Globals) (pos : coord) (counter : Int) :
    Except Err (Bool × Globals) → Prop
  | .error e => e = .outOfFuel ∧ fuel < unvisited g1
  | .ok (false, g') => g' = setFieldVal g1 pos false
  | .ok (true, g') => counter + 1 < g1.sizeX * g1.sizeY ∧ g'.sizeX = g1.sizeX
      ∧ g'.sizeY = g1.sizeY ∧ g'.board.length = g1.board.length

/-! ## The search engine with a log of its writes -/

/-- A call of one of the two writing functions, with its arguments. -/
inductive WriteCall where
  | setFieldVal (pos : coord) (val : Bool)
  | addStepToSteps (pos : coord) (step : Int)
deriving DecidableEq

/-- The loop of source lines 220-231 as in `tryFollowingSteps`, which besides the result
yields the calls of `setFieldVal` and `addStepToSteps` in the order they are made. -/
def tryFollowingStepsLogged
    (call : Globals → coord → Except Err (Bool × Globals) × List WriteCall)
    (pos : coord) (counter : Int) :
    Globals → List extCoord → Except Err (Bool × Globals) × List WriteCall
  | g, [] => (.ok (false, setFieldVal g pos false), [.setFieldVal pos false])
  | g, c :: rest =>
    if c.possibleSteps ≠ -1 then
      match call g c.position with
      | (.error e, log) => (.error e, log)
      | (.ok (true, g'), log) =>
        (addStepToSteps g' pos counter, log ++ [.addStepToSteps pos counter])
      | (.ok (false, g'), log) =>
        ((tryFollowingStepsLogged call pos counter g' rest).1,
          log ++ (tryFollowingStepsLogged call pos counter g' rest).2)
    else
      tryFollowingStepsLogged call pos counter g rest

/-- Source lines 182-232 as in `backTrackingAlgorithm`, which besides the result yields the
calls of `setFieldVal` and `addStepToSteps` in the order they are made. -/
def backTrackingAlgorithmLogged (qsort : List extCoord → List extCoord) :
    Nat → Globals → coord → coord → Int → Int → Except Err (Bool × Globals) × List WriteCall
  | 0, _, _, _, _, _ => (.error .outOfFuel, [])
  | fuel + 1, g, pos, final, counter, modifier =>
    let g1 := setFieldVal g pos true
    if counter = g1.sizeX * g1.sizeY - 1 then
      if reachesFinal pos final then
        (addStepToSteps g1 pos counter, [.setFieldVal pos true, .addStepToSteps pos counter])
      else
        (.ok (false, setFieldVal g1 pos false), [.setFieldVal pos true, .setFieldVal pos false])
    else
      let followingSteps := (List.range 8).map (followingStep g1 pos modifier)
      ((tryFollowingStepsLogged
          (fun g' next =>
            backTrackingAlgorithmLogged qsort fuel g' next final (counter + 1) modifier)
          pos counter g1 (qsort followingSteps)).1,
        .setFieldVal pos true :: (tryFollowingStepsLogged
          (fun g' next =>
            backTrackingAlgorithmLogged qsort fuel g' next final (counter + 1) modifier)
          pos counter g1 (qsort followingSteps)).2)

/-- A write is in range: the square is on-board, and a recorded step is below
`sizeX * sizeY`, so that `addStepToSteps` does not take its `exit(1)` branch. -/
def WriteInRange (g : Globals) : WriteCall → Prop
  | .setFieldVal pos _ => checkValid g pos = true
  | .addStepToSteps pos step => checkValid g pos = true ∧ step < g.sizeX * g.sizeY

/-! ## The comparator of the ranker -/

/-- The conversion of a `double` to `int`, which truncates towards zero. -/
def truncToInt (q : Rat) : Int :=
  if 0 ≤ q then ⌊q⌋ else ⌈q⌉

/-- Source lines 147-163.  The values of type `double` are rationals; the halves, the squares
`pow(., 2)`, the sum and the difference are taken exactly; `sqrt` is the C library's and a
parameter; the `int` returned for a `double` is its truncation towards zero. -/
def compare (sqrt : Rat → Rat) (g : Globals) (aExt bExt : extCoord) : Int :=
  let res := aExt.possibleSteps - bExt.possibleSteps
  if res = 0 then
    let distA := sqrt ((((g.sizeX - 1 : Int) : Rat) / 2 - (aExt.position.x : Rat)) ^ 2
      + (((g.sizeY - 1 : Int) : Rat) / 2 - (aExt.position.y : Rat)) ^ 2)
    let distB := sqrt ((((g.sizeX - 1 : Int) : Rat) / 2 - (bExt.position.x : Rat)) ^ 2
      + (((g.sizeY - 1 : Int) : Rat) / 2 - (bExt.position.y : Rat)) ^ 2)
    truncToInt (distA - distB)
  else
    res

/-- The square of the Euclidean distance of a square from the board centre
`((sizeX-1)/2, (sizeY-1)/2)`. -/
def centreDistSq (g : Globals) (p : coord) : Rat :=
  (((g.sizeX - 1 : Int) : Rat) / 2 - (p.x : Rat)) ^ 2
    + (((g.sizeY - 1 : Int) : Rat) / 2 - (p.y : Rat)) ^ 2

/-- A stand-in for the library square root: five rounds of Heron's method from `(q + 1) / 2`. -/
def sqrtHeron (q : Rat) : Rat :=
  let step := fun s : Rat => (s + q / s) / 2
  step (step (step (step (step ((q + 1) / 2)))))

theorem length_store {α : Type} (mem : List α) (i : Int) (v : α) :
    (store mem i v).length = mem.length := by
  unfold store; split <;> simp

theorem load_store_same {α : Type} [Inhabited α] (mem : List α) (i : Int) (v : α)
    (h0 : 0 ≤ i) (h1 : i.toNat < mem.length) : load (store mem i v) i = v := by
  simp [load, store, h0, List.getD_eq_getElem?_getD, List.getElem?_set, h1]

theorem load_store_ne {α : Type} [Inhabited α] (mem : List α) (i j : Int) (v : α)
    (h : i ≠ j) : load (store mem i v) j = load mem j := by
  unfold load store
  by_cases hi : 0 ≤ i <;> by_cases hj : 0 ≤ j <;> simp [hi, hj]
  have : i.toNat ≠ j.toNat := by omega
  simp [List.getD_eq_getElem?_getD, List.getElem?_set, this]

theorem store_restore (mem : List Bool) (i : Int) (a : Bool) (h0 : 0 ≤ i)
    (h1 : i.toNat < mem.length) (h : load mem i = a) (b : Bool) :
    store (store mem i b) i a = mem := by
  simp only [load, h0, if_true, List.getD_eq_getElem?_getD] at h
  simp only [store, h0, if_true, List.set_set]
  apply List.ext_getElem?
  intro n
  rw [List.getElem?_set]
  by_cases hn : i.toNat = n
  · subst hn
    simp only [if_true, h1]
    rw [List.getElem?_eq_getElem h1] at h ⊢
    simpa using h.symm
  · simp [hn]

theorem count_store_true (mem : List Bool) (i : Int) (h0 : 0 ≤ i)
    (h1 : i.toNat < mem.length) (h : load mem i = false) :
    (store mem i true).count false + 1 = mem.count false := by
  simp only [load, h0, if_true, List.getD_eq_getElem?_getD] at h
  rw [List.getElem?_eq_getElem h1] at h
  simp only [Option.getD_some] at h
  simp only [store, h0, if_true]
  rw [List.count_set _ _ _ _ h1]
  simp only [h, beq_self_eq_true, if_true]
  have hpos : 0 < mem.count false := by
    rw [List.count_pos_iff]
    rw [← h]; exact List.getElem_mem _
  simp
  omega

/-! ## Board lemmas -/

theorem checkValid_iff (g : Globals) (p : coord) :
    checkValid g p = true ↔ (0 ≤ p.x ∧ p.x < g.sizeX) ∧ (0 ≤ p.y ∧ p.y < g.sizeY) := by
  simp only [checkValid, Bool.and_eq_true, decide_eq_true_eq, ge_iff_le]
  constructor
  · rintro ⟨⟨⟨h1, h2⟩, h3⟩, h4⟩; exact ⟨⟨h3, h1⟩, h4, h2⟩
  · rintro ⟨⟨h3, h1⟩, h4, h2⟩; exact ⟨⟨⟨h1, h2⟩, h3⟩, h4⟩

theorem cellIndex_nonneg (g : Globals) (p : coord) (h : checkValid g p = true) :
    0 ≤ cellIndex g p := by
  rw [checkValid_iff] at h
  obtain ⟨⟨hx0, hx1⟩, hy0, hy1⟩ := h
  unfold cellIndex
  have : 0 ≤ p.y * g.sizeX := mul_nonneg hy0 (by omega)
  omega

theorem cellIndex_lt (g : Globals) (p : coord) (h : checkValid g p = true) :
    cellIndex g p < g.sizeX * g.sizeY := by
  rw [checkValid_iff] at h
  obtain ⟨⟨hx0, hx1⟩, hy0, hy1⟩ := h
  unfold cellIndex
  have h1 : (p.y + 1) * g.sizeX ≤ g.sizeY * g.sizeX :=
    mul_le_mul_of_nonneg_right (by omega) (by omega)
  have h2 : (p.y + 1) * g.sizeX = p.y * g.sizeX + g.sizeX := by ring
  have h3 : g.sizeY * g.sizeX = g.sizeX * g.sizeY := by ring
  omega

theorem cellIndex_inj (g : Globals) (p q : coord) (hp : checkValid g p = true)
    (hq : checkValid g q = true) (h : cellIndex g p = cellIndex g q) : p = q := by
  rw [checkValid_iff] at hp hq
  obtain ⟨⟨hpx0, hpx1⟩, hpy0, hpy1⟩ := hp
  obtain ⟨⟨hqx0, hqx1⟩, hqy0, hqy1⟩ := hq
  unfold cellIndex at h
  have hy : p.y = q.y := by
    rcases lt_trichotomy p.y q.y with hlt | heq | hgt
    · exfalso
      have h1 : (p.y + 1) * g.sizeX ≤ q.y * g.sizeX :=
        mul_le_mul_of_nonneg_right (by omega) (by omega)
      have h2 : (p.y + 1) * g.sizeX = p.y * g.sizeX + g.sizeX := by ring
      omega
    · exact heq
    · exfalso
      have h1 : (q.y + 1) * g.sizeX ≤ p.y * g.sizeX :=
        mul_le_mul_of_nonneg_right (by omega) (by omega)
      have h2 : (q.y + 1) * g.sizeX = q.y * g.sizeX + g.sizeX := by ring
      omega
  have hx : p.x = q.x := by rw [hy] at h; omega
  cases p; cases q; simp_all

theorem cellIndex_toNat_lt (g : Globals) (p : coord) (h : checkValid g p = true) :
    (cellIndex g p).toNat < (g.sizeX * g.sizeY).toNat := by
  have h0 := cellIndex_nonneg g p h
  have h1 := cellIndex_lt g p h
  omega

theorem getFieldVal_false_valid (g : Globals) (p : coord) (h : getFieldVal g p = false) :
    checkValid g p = true := by
  unfold getFieldVal at h
  by_cases hv : checkValid g p = true
  · exact hv
  · simp [hv] at h

theorem wellSized_setFieldVal (g : Globals) (pos : coord) (v : Bool) (hw : WellSized g) :
    WellSized (setFieldVal g pos v) := by
  obtain ⟨hb, hs⟩ := hw
  exact ⟨by simp [setFieldVal, length_store, hb], by simp [setFieldVal, hs]⟩

theorem getFieldVal_setFieldVal_same (g : Globals) (pos : coord) (hw : WellSized g)
    (hv : checkValid g pos = true) :
    getFieldVal (setFieldVal g pos true) pos = true := by
  have hv2 : checkValid (setFieldVal g pos true) pos = true := hv
  unfold getFieldVal
  rw [if_pos hv2]
  show load (store g.board (cellIndex g pos) true) (cellIndex g pos) = true
  apply load_store_same _ _ _ (cellIndex_nonneg g pos hv)
  rw [hw.1]; exact cellIndex_toNat_lt g pos hv

theorem getFieldVal_setFieldVal_ne (g : Globals) (pos p : coord) (v : Bool)
    (hv : checkValid g pos = true) (hne : p ≠ pos) :
    getFieldVal (setFieldVal g pos v) p = getFieldVal g p := by
  unfold getFieldVal
  have hc : checkValid (setFieldVal g pos v) p = checkValid g p := rfl
  rw [hc]
  by_cases hp : checkValid g p = true
  · rw [if_pos hp, if_pos hp]
    show load (store g.board (cellIndex g pos) v) (cellIndex g p) = load g.board (cellIndex g p)
    apply load_store_ne
    intro h
    exact hne (cellIndex_inj g p pos hp hv h.symm)
  · rw [if_neg hp, if_neg hp]

theorem setFieldVal_restore (g : Globals) (pos : coord) (hw : WellSized g)
    (hv : checkValid g pos = true) (hf : getFieldVal g pos = false) :
    setFieldVal (setFieldVal g pos true) pos false = g := by
  unfold getFieldVal at hf
  rw [if_pos hv] at hf
  have h1 : (cellIndex g pos).toNat < g.board.length := by
    rw [hw.1]; exact cellIndex_toNat_lt g pos hv
  have := store_restore g.board (cellIndex g pos) false (cellIndex_nonneg g pos hv) h1 hf true
  cases g
  simp only [setFieldVal, cellIndex] at this ⊢
  simp [this]

theorem unvisited_setFieldVal (g : Globals) (pos : coord) (hw : WellSized g)
    (hv : checkValid g pos = true) (hf : getFieldVal g pos = false) :
    unvisited (setFieldVal g pos true) + 1 = unvisited g := by
  unfold getFieldVal at hf
  rw [if_pos hv] at hf
  have h1 : (cellIndex g pos).toNat < g.board.length := by
    rw [hw.1]; exact cellIndex_toNat_lt g pos hv
  exact count_store_true g.board (cellIndex g pos) (cellIndex_nonneg g pos hv) h1 hf

theorem getFieldVal_setFieldVal_mono (g : Globals) (pos p : coord) (hw : WellSized g)
    (hv : checkValid g pos = true) (h : getFieldVal g p = true) :
    getFieldVal (setFieldVal g pos true) p = true := by
  by_cases hp : p = pos
  · subst hp; exact getFieldVal_setFieldVal_same g p hw hv
  · rw [getFieldVal_setFieldVal_ne g pos p true hv hp]; exact h

/-! ## Move generator lemmas -/

theorem knightMove_iff (a b : coord) :
    knightMove a b ↔
      (b.x = a.x + 2 ∧ b.y = a.y + 1) ∨ (b.x = a.x + 2 ∧ b.y = a.y - 1)
      ∨ (b.x = a.x - 2 ∧ b.y = a.y + 1) ∨ (b.x = a.x - 2 ∧ b.y = a.y - 1)
      ∨ (b.x = a.x + 1 ∧ b.y = a.y + 2) ∨ (b.x = a.x + 1 ∧ b.y = a.y - 2)
      ∨ (b.x = a.x - 1 ∧ b.y = a.y + 2) ∨ (b.x = a.x - 1 ∧ b.y = a.y - 2) := by
  have e1 : ∀ n : Int, n.natAbs = 1 ↔ (n = 1 ∨ n = -1) := by intro n; omega
  have e2 : ∀ n : Int, n.natAbs = 2 ↔ (n = 2 ∨ n = -2) := by intro n; omega
  unfold knightMove
  rw [e1, e2, e1, e2]
  constructor
  · rintro (⟨h1 | h1, h2 | h2⟩ | ⟨h1 | h1, h2 | h2⟩)
    · right; right; right; right; left; constructor <;> omega
    · right; right; right; right; right; left; constructor <;> omega
    · right; right; right; right; right; right; left; constructor <;> omega
    · right; right; right; right; right; right; right; constructor <;> omega
    · left; constructor <;> omega
    · right; left; constructor <;> omega
    · right; right; left; constructor <;> omega
    · right; right; right; left; constructor <;> omega
  · rintro (⟨h1, h2⟩ | ⟨h1, h2⟩ | ⟨h1, h2⟩ | ⟨h1, h2⟩ | ⟨h1, h2⟩ | ⟨h1, h2⟩ | ⟨h1, h2⟩ | ⟨h1, h2⟩)
    · right; constructor <;> omega
    · right; constructor <;> omega
    · right; constructor <;> omega
    · right; constructor <;> omega
    · left; constructor <;> omega
    · left; constructor <;> omega
    · left; constructor <;> omega
    · left; constructor <;> omega

theorem knightMove_symm (a b : coord) (h : knightMove a b) : knightMove b a := by
  unfold knightMove at *; omega

theorem wrapInt_tmod (n : Int) (h0 : 0 ≤ n) (h1 : n ≤ 2147483648) :
    Int.tmod (wrapInt n) 8 = n % 8 := by
  unfold wrapInt
  by_cases h : n = 2147483648
  · subst h; decide
  · have hn : (n + 2147483648) % 4294967296 - 2147483648 = n := by omega
    rw [hn]
    exact Int.tmod_eq_emod h0 (by omega)

/-- The field number that the `switch` of `getFieldByNumber` receives, as long as the sum of
line 74 does not exceed `2^31` (at `2^31` it wraps to a multiple of 8). -/
theorem getFieldByNumber_eq (pos : coord) (i m : Int) (hi : 0 ≤ i) (hm : 0 ≤ m)
    (hb : i + m ≤ 2147483648) (r : Int)
    (hr : r = (i + m + (if m ≥ 8 then 4 else 0)) % 8) :
    getFieldByNumber pos i m =
      if r = 0 then ⟨pos.x + 2, pos.y + 1⟩
      else if r = 1 then ⟨pos.x + 2, pos.y - 1⟩
      else if r = 2 then ⟨pos.x - 2, pos.y + 1⟩
      else if r = 3 then ⟨pos.x - 2, pos.y - 1⟩
      else if r = 4 then ⟨pos.x + 1, pos.y + 2⟩
      else if r = 5 then ⟨pos.x + 1, pos.y - 2⟩
      else if r = 6 then ⟨pos.x - 1, pos.y + 2⟩
      else if r = 7 then ⟨pos.x - 1, pos.y - 2⟩
      else pos := by
  have h1 : Int.tmod (wrapInt (i + m)) 8 = (i + m) % 8 := wrapInt_tmod _ (by omega) hb
  have h2 : Int.tmod ((i + m) % 8 + 4) 8 = ((i + m) % 8 + 4) % 8 :=
    Int.tmod_eq_emod (by omega) (by omega)
  have h3 : (if m ≥ 8 then Int.tmod (Int.tmod (wrapInt (i + m)) 8 + 4) 8
      else Int.tmod (wrapInt (i + m)) 8) = r := by
    rw [h1, h2, hr]
    split <;> omega
  unfold getFieldByNumber
  simp only [h3]

theorem getFieldByNumber_knight (pos : coord) (i m : Int) (hi : 0 ≤ i) (hm : 0 ≤ m)
    (hb : i + m ≤ 2147483648) :
    knightMove pos (getFieldByNumber pos i m) := by
  have hr : 0 ≤ (i + m + (if m ≥ 8 then 4 else 0)) % 8
      ∧ (i + m + (if m ≥ 8 then 4 else 0)) % 8 < 8 := by omega
  rw [getFieldByNumber_eq pos i m hi hm hb _ rfl]
  generalize (i + m + (if m ≥ 8 then 4 else 0)) % 8 = r at hr
  rw [knightMove_iff]
  split_ifs <;> (simp; try omega)

theorem knight_getFieldByNumber (a b : coord) (m : Int) (hm : 0 ≤ m) (hmb : m ≤ 2147483641)
    (h : knightMove a b) :
    ∃ i : Nat, i < 8 ∧ getFieldByNumber a (i : Int) m = b := by
  have key : ∀ r : Int, 0 ≤ r → r < 8 →
      ∃ i : Nat, i < 8 ∧ r = ((i : Int) + m + (if m ≥ 8 then 4 else 0)) % 8 := by
    intro r hr0 hr8
    refine ⟨((r - m - (if m ≥ 8 then 4 else 0)) % 8).toNat, by omega, ?_⟩
    rw [Int.toNat_of_nonneg (by omega)]
    split <;> omega
  rw [knightMove_iff] at h
  have hb : b = ⟨b.x, b.y⟩ := rfl
  rcases h with h | h | h | h | h | h | h | h
  · obtain ⟨i, hi, hr⟩ := key 0 (by omega) (by omega)
    refine ⟨i, hi, ?_⟩
    rw [getFieldByNumber_eq a i m (by omega) hm (by omega) 0 hr, hb, h.1, h.2]; simp
  · obtain ⟨i, hi, hr⟩ := key 1 (by omega) (by omega)
    refine ⟨i, hi, ?_⟩
    rw [getFieldByNumber_eq a i m (by omega) hm (by omega) 1 hr, hb, h.1, h.2]; simp
  · obtain ⟨i, hi, hr⟩ := key 2 (by omega) (by omega)
    refine ⟨i, hi, ?_⟩
    rw [getFieldByNumber_eq a i m (by omega) hm (by omega) 2 hr, hb, h.1, h.2]; simp
  · obtain ⟨i, hi, hr⟩ := key 3 (by omega) (by omega)
    refine ⟨i, hi, ?_⟩
    rw [getFieldByNumber_eq a i m (by omega) hm (by omega) 3 hr, hb, h.1, h.2]; simp
  · obtain ⟨i, hi, hr⟩ := key 4 (by omega) (by omega)
    refine ⟨i, hi, ?_⟩
    rw [getFieldByNumber_eq a i m (by omega) hm (by omega) 4 hr, hb, h.1, h.2]; simp
  · obtain ⟨i, hi, hr⟩ := key 5 (by omega) (by omega)
    refine ⟨i, hi, ?_⟩
    rw [getFieldByNumber_eq a i m (by omega) hm (by omega) 5 hr, hb, h.1, h.2]; simp
  · obtain ⟨i, hi, hr⟩ := key 6 (by omega) (by omega)
    refine ⟨i, hi, ?_⟩
    rw [getFieldByNumber_eq a i m (by omega) hm (by omega) 6 hr, hb, h.1, h.2]; simp
  · obtain ⟨i, hi, hr⟩ := key 7 (by omega) (by omega)
    refine ⟨i, hi, ?_⟩
    rw [getFieldByNumber_eq a i m (by omega) hm (by omega) 7 hr, hb, h.1, h.2]; simp

theorem reachesFinal_iff (pos final : coord) :
    reachesFinal pos final = true ↔ finalOK final pos := by
  unfold reachesFinal finalOK
  simp only [List.any_eq_true, List.mem_range, Bool.or_eq_true, Bool.and_eq_true,
    decide_eq_true_eq]
  constructor
  · rintro ⟨i, hi, h | h⟩
    · left
      have hk := getFieldByNumber_knight pos (i : Int) 0 (by omega) (by omega) (by omega)
      have : getFieldByNumber pos (i : Int) 0 = final := by
        cases hf : final; cases hg : getFieldByNumber pos (i : Int) 0
        rw [hf, hg] at h; simp at h; simp [h.1, h.2]
      rw [this] at hk; exact hk
    · right
      cases hf : final; rw [hf] at h; simp at h; simp [invalid, h.1, h.2]
  · rintro (h | h)
    · obtain ⟨i, hi, he⟩ := knight_getFieldByNumber pos final 0 (by omega) (by omega) h
      exact ⟨i, hi, Or.inl (by rw [he]; simp)⟩
    · exact ⟨0, by omega, Or.inr (by rw [h]; simp [invalid])⟩

theorem countPossibleSteps_nonneg (g : Globals) (p : coord) : 0 ≤ countPossibleSteps g p := by
  unfold countPossibleSteps
  have key : ∀ (l : List Nat) (init : Int), 0 ≤ init →
      0 ≤ l.foldl (fun (result : Int) (i : Nat) =>
        let buffer := getFieldByNumber p (i : Int) 0
        if !getFieldVal g buffer then result + 1 else result) init := by
    intro l
    induction l with
    | nil => intro init h; simpa using h
    | cons a t ih =>
      intro init h
      simp only [List.foldl_cons]
      apply ih
      show 0 ≤ (if (!getFieldVal g (getFieldByNumber p (a : Int) 0)) = true then init + 1 else init)
      split <;> omega
  exact key _ 0 (le_refl 0)

/-! ## The search engine -/

theorem tryFollowingSteps_spec (call : Globals → coord → Except Err (Bool × Globals))
    (pos final : coord) (counter : Int) (fuel : Nat) (g1 : Globals)
    (hcnt : counter < g1.sizeX * g1.sizeY)
    (hcall : ∀ p, getFieldVal g1 p = false → knightMove pos p →
      Post fuel g1 p final (counter + 1) (call g1 p))
    (cands : List extCoord)
    (hc : ∀ c ∈ cands, c.possibleSteps ≠ -1 →
      getFieldVal g1 c.position = false ∧ knightMove pos c.position) :
    LoopPost fuel g1 pos final counter cands (tryFollowingSteps call pos counter g1 cands) := by
  induction cands with
  | nil =>
    simp [tryFollowingSteps, LoopPost]
  | cons c rest ih =>
    have ih2 := ih (fun d hd => hc d (List.mem_cons_of_mem _ hd))
    rw [tryFollowingSteps]
    by_cases hps : c.possibleSteps ≠ -1
    · rw [if_pos hps]
      obtain ⟨hcf, hck⟩ := hc c (List.mem_cons_self _ _) hps
      have hp := hcall c.position hcf hck
      cases hres : call g1 c.position with
      | error e =>
        rw [hres] at hp
        simpa [LoopPost, Post] using hp
      | ok r =>
        obtain ⟨b, g'⟩ := r
        rw [hres] at hp
        cases b with
        | true =>
          simp only [Post] at hp
          have hs := hp
          obtain ⟨rest', -, hsx, hsy, -, -⟩ := hp
          have hlt : counter < g'.sizeX * g'.sizeY := by rw [hsx, hsy]; exact hcnt
          simp only [addStepToSteps, if_pos hlt, LoopPost]
          exact ⟨c, List.mem_cons_self _ _, hps, g', hs, rfl⟩
        | false =>
          simp only [Post] at hp
          obtain ⟨hg, hne⟩ := hp
          subst hg
          simp only
          revert ih2
          cases tryFollowingSteps call pos counter g' rest with
          | error e => simp [LoopPost]
          | ok r2 =>
            obtain ⟨b2, g2⟩ := r2
            cases b2 with
            | true =>
              simp only [LoopPost]
              rintro ⟨d, hd, hdp, h⟩
              exact ⟨d, List.mem_cons_of_mem _ hd, hdp, h⟩
            | false =>
              simp only [LoopPost]
              rintro ⟨h1, h2⟩
              refine ⟨h1, ?_⟩
              intro d hd hdp
              rcases List.mem_cons.1 hd with rfl | hd
              · exact hne
              · exact h2 d hd hdp
    · rw [if_neg hps]
      revert ih2
      cases tryFollowingSteps call pos counter g1 rest with
      | error e => simp [LoopPost]
      | ok r2 =>
        obtain ⟨b2, g2⟩ := r2
        cases b2 with
        | true =>
          simp only [LoopPost]
          rintro ⟨d, hd, hdp, h⟩
          exact ⟨d, List.mem_cons_of_mem _ hd, hdp, h⟩
        | false =>
          simp only [LoopPost]
          rintro ⟨h1, h2⟩
          refine ⟨h1, ?_⟩
          intro d hd hdp
          rcases List.mem_cons.1 hd with rfl | hd
          · exact absurd hdp hps
          · exact h2 d hd hdp

theorem completes_cons (g : Globals) (pos final next : coord) (rest : List coord)
    (hw : WellSized g) (hv : checkValid g pos = true) (hf : getFieldVal g pos = false)
    (hk : knightMove pos next)
    (h : Completes (setFieldVal g pos true) next final rest) :
    Completes g pos final (next :: rest) := by
  obtain ⟨hpath, hfree, hnd, hlen⟩ := h
  have hu := unvisited_setFieldVal g pos hw hv hf
  have hnot : pos ∉ next :: rest := by
    intro hmem
    have h1 := (hfree pos hmem).2
    rw [getFieldVal_setFieldVal_same g pos hw hv] at h1
    exact Bool.noConfusion h1
  refine ⟨⟨hk, hpath⟩, ?_, List.nodup_cons.2 ⟨hnot, hnd⟩, ?_⟩
  · intro p hp
    rcases List.mem_cons.1 hp with rfl | hp
    · exact ⟨hv, hf⟩
    · have hne : p ≠ pos := fun e => hnot (e ▸ hp)
      obtain ⟨h1, h2⟩ := hfree p hp
      rw [getFieldVal_setFieldVal_ne g pos p true hv hne] at h2
      exact ⟨h1, h2⟩
  · simp only [List.length_cons] at hlen ⊢
    omega

theorem completes_tail (g : Globals) (pos final next : coord) (rest : List coord)
    (hw : WellSized g) (hv : checkValid g pos = true) (hf : getFieldVal g pos = false)
    (h : Completes g pos final (next :: rest)) :
    knightMove pos next ∧ Completes (setFieldVal g pos true) next final rest := by
  obtain ⟨hpath, hfree, hnd, hlen⟩ := h
  have hu := unvisited_setFieldVal g pos hw hv hf
  obtain ⟨hnot, hnd'⟩ := List.nodup_cons.1 hnd
  refine ⟨hpath.1, hpath.2, ?_, hnd', ?_⟩
  · intro p hp
    have hne : p ≠ pos := fun e => hnot (e ▸ hp)
    obtain ⟨h1, h2⟩ := hfree p (List.mem_cons_of_mem _ hp)
    rw [getFieldVal_setFieldVal_ne g pos p true hv hne]
    exact ⟨h1, h2⟩
  · simp only [List.length_cons] at hlen ⊢
    omega

theorem success_record (g : Globals) (pos final : coord) (counter : Int) (g2 : Globals)
    (rest : List coord) (hw : WellSized g)
    (hcomp : Completes g pos final rest)
    (hsx : g2.sizeX = g.sizeX) (hsy : g2.sizeY = g.sizeY) (hw2 : WellSized g2)
    (hsteps : ∀ (k : Nat) (p : coord), rest[k]? = some p → stepAt g2 p = counter + 1 + (k : Int))
    (hmono : ∀ p, getFieldVal (setFieldVal g pos true) p = true → getFieldVal g2 p = true)
    (hvis : ∀ p ∈ rest, getFieldVal g2 p = true) :
    Success g pos final counter
      { g2 with steps := store g2.steps (cellIndex g2 pos) counter } := by
  have hv : checkValid g pos = true := (hcomp.2.1 pos (List.mem_cons_self _ _)).1
  have hv2 : checkValid g2 pos = true := by
    rw [checkValid_iff] at hv ⊢; rw [hsx, hsy]; exact hv
  refine ⟨rest, hcomp, hsx, hsy, ⟨?_, ?_⟩, ?_, ?_, ?_⟩
  · exact hw2.1
  · show (store g2.steps (cellIndex g2 pos) counter).length = _
    rw [length_store]; exact hw2.2
  · intro k p hk
    cases k with
    | zero =>
      simp only [List.getElem?_cons_zero, Option.some.injEq] at hk
      subst hk
      show load (store g2.steps (cellIndex g2 pos) counter) (cellIndex g2 pos) = _
      rw [load_store_same _ _ _ (cellIndex_nonneg g2 pos hv2)]
      · simp
      · rw [hw2.2]; exact cellIndex_toNat_lt g2 pos hv2
    | succ k =>
      simp only [List.getElem?_cons_succ] at hk
      have hmem : p ∈ rest := List.getElem?_mem hk
      have hpv : checkValid g p = true := (hcomp.2.1 p (List.mem_cons_of_mem _ hmem)).1
      have hpv2 : checkValid g2 p = true := by
        rw [checkValid_iff] at hpv ⊢; rw [hsx, hsy]; exact hpv
      have hne : pos ≠ p := by
        intro e
        have := (List.nodup_cons.1 hcomp.2.2.1).1
        exact this (e ▸ hmem)
      show load (store g2.steps (cellIndex g2 pos) counter) (cellIndex g2 p) = _
      rw [load_store_ne]
      · have := hsteps k p hk
        unfold stepAt at this
        rw [this]; push_cast; ring
      · intro e
        exact hne (cellIndex_inj g2 pos p hv2 hpv2 e)
  · intro p hp
    show getFieldVal g2 p = true
    exact hmono p (getFieldVal_setFieldVal_mono g pos p hw hv hp)
  · intro p hp
    show getFieldVal g2 p = true
    rcases List.mem_cons.1 hp with rfl | hp
    · exact hmono p (getFieldVal_setFieldVal_same g p hw hv)
    · exact hvis p hp

theorem followingStep_cand (g : Globals) (pos : coord) (modifier : Int) (i : Nat)
    (h : (followingStep g pos modifier i).possibleSteps ≠ -1) :
    getFieldVal g (followingStep g pos modifier i).position = false
      ∧ (followingStep g pos modifier i).position = getFieldByNumber pos (i : Int) modifier := by
  unfold followingStep at h ⊢
  by_cases hfree : (!getFieldVal g (getFieldByNumber pos (i : Int) modifier)) = true
  · simp only [hfree, if_true]
    simpa using hfree
  · simp [hfree] at h

theorem followingStep_free (g : Globals) (pos : coord) (modifier : Int) (i : Nat)
    (h : getFieldVal g (getFieldByNumber pos (i : Int) modifier) = false) :
    (followingStep g pos modifier i).possibleSteps ≠ -1
      ∧ (followingStep g pos modifier i).position = getFieldByNumber pos (i : Int) modifier := by
  unfold followingStep
  simp only [h, Bool.not_false, if_true, and_true]
  have := countPossibleSteps_nonneg g (getFieldByNumber pos (i : Int) modifier)
  omega

/-- The contract of `backTrackingAlgorithm`: called on an unvisited on-board square with
`counter` equal to the number of squares already visited, it fails only for want of fuel,
returns false only if no tour completes the current path (and then leaves the globals as they
were), and returns true only with such a tour recorded. -/
theorem backTrackingAlgorithm_post (qsort : List extCoord → List extCoord)
    (hq : ∀ l, (qsort l).Perm l) (final : coord) (modifier : Int) (hm : 0 ≤ modifier)
    (hmb : modifier ≤ 2147483641) :
    ∀ (fuel : Nat) (g : Globals) (pos : coord) (counter : Int),
      WellSized g → checkValid g pos = true → getFieldVal g pos = false →
      counter + (unvisited g : Int) = g.sizeX * g.sizeY →
      Post fuel g pos final counter
        (backTrackingAlgorithm qsort fuel g pos final counter modifier) := by
  intro fuel
  induction fuel with
  | zero =>
    intro g pos counter hw hv hf hcn
    have hu := unvisited_setFieldVal g pos hw hv hf
    simp only [backTrackingAlgorithm, Post, true_and]
    omega
  | succ fuel ih =>
    intro g pos counter hw hv hf hcn
    have hu := unvisited_setFieldVal g pos hw hv hf
    have hw1 := wellSized_setFieldVal g pos true hw
    have hrest := setFieldVal_restore g pos hw hv hf
    have hsame := getFieldVal_setFieldVal_same g pos hw hv
    have hcnt : counter < g.sizeX * g.sizeY := by omega
    rw [backTrackingAlgorithm]
    by_cases hterm : counter = g.sizeX * g.sizeY - 1
    · -- the last square of the board
      have hone : unvisited g = 1 := by omega
      simp only [setFieldVal, hterm, if_true]
      by_cases hfin : reachesFinal pos final = true
      · rw [if_pos hfin]
        have hlt : g.sizeX * g.sizeY - 1 < g.sizeX * g.sizeY := by omega
        simp only [addStepToSteps, if_pos hlt, Post]
        have hcomp : Completes g pos final [] :=
          ⟨(reachesFinal_iff pos final).1 hfin, by simpa using ⟨hv, hf⟩, by simp, by simp [hone]⟩
        have := success_record g pos final counter (setFieldVal g pos true) [] hw hcomp rfl rfl hw1
          (by simp) (fun p hp => hp) (by simp)
        rw [hterm] at this
        exact this
      · rw [if_neg hfin]
        simp only [Post]
        refine ⟨hrest, ?_⟩
        rintro ⟨rest, hpath, -, -, hlen⟩
        have : rest = [] := by
          apply List.eq_nil_of_length_eq_zero; omega
        subst this
        exact hfin ((reachesFinal_iff pos final).2 hpath)
    · -- an inner node of the search
      have hterm' : ¬ counter = (setFieldVal g pos true).sizeX * (setFieldVal g pos true).sizeY - 1 :=
        hterm
      simp only [if_neg hterm']
      have hperm := hq ((List.range 8).map (followingStep (setFieldVal g pos true) pos modifier))
      have hcands : ∀ c ∈ qsort ((List.range 8).map
          (followingStep (setFieldVal g pos true) pos modifier)),
          c.possibleSteps ≠ -1 →
            getFieldVal (setFieldVal g pos true) c.position = false ∧ knightMove pos c.position := by
        intro c hc hps
        rw [hperm.mem_iff, List.mem_map] at hc
        obtain ⟨i, hi, rfl⟩ := hc
        have hi8 := List.mem_range.1 hi
        obtain ⟨h1, h2⟩ := followingStep_cand _ pos modifier i hps
        refine ⟨h1, ?_⟩
        rw [h2]
        exact getFieldByNumber_knight pos (i : Int) modifier (by omega) hm (by omega)
      have hcall : ∀ p, getFieldVal (setFieldVal g pos true) p = false → knightMove pos p →
          Post fuel (setFieldVal g pos true) p final (counter + 1)
            (backTrackingAlgorithm qsort fuel (setFieldVal g pos true) p final (counter + 1)
              modifier) := by
        intro p hp _
        apply ih _ p (counter + 1) hw1 (getFieldVal_false_valid _ p hp) hp
        show counter + 1 + (unvisited (setFieldVal g pos true) : Int) = g.sizeX * g.sizeY
        omega
      have hloop := tryFollowingSteps_spec
        (fun g' next => backTrackingAlgorithm qsort fuel g' next final (counter + 1) modifier)
        pos final counter fuel (setFieldVal g pos true) hcnt hcall _ hcands
      revert hloop
      cases tryFollowingSteps
        (fun g' next => backTrackingAlgorithm qsort fuel g' next final (counter + 1) modifier)
        pos counter (setFieldVal g pos true)
        (qsort ((List.range 8).map (followingStep (setFieldVal g pos true) pos modifier))) with
      | error e =>
        simp only [LoopPost, Post]
        rintro ⟨h1, h2⟩
        exact ⟨h1, by omega⟩
      | ok r =>
        obtain ⟨b, g'⟩ := r
        cases b with
        | false =>
          simp only [LoopPost, Post]
          rintro ⟨h1, h2⟩
          refine ⟨by rw [h1, hrest], ?_⟩
          rintro ⟨rest, hcomp⟩
          cases rest with
          | nil =>
            have := hcomp.2.2.2
            simp only [List.length_nil] at this
            omega
          | cons next rest' =>
            obtain ⟨hk, htail⟩ := completes_tail g pos final next rest' hw hv hf hcomp
            obtain ⟨i, hi, hnext⟩ := knight_getFieldByNumber pos next modifier hm hmb hk
            have hfree : getFieldVal (setFieldVal g pos true) next = false :=
              (htail.2.1 next (List.mem_cons_self _ _)).2
            obtain ⟨hps, hposn⟩ :=
              followingStep_free (setFieldVal g pos true) pos modifier i (by rw [hnext]; exact hfree)
            have hmem : followingStep (setFieldVal g pos true) pos modifier i ∈
                qsort ((List.range 8).map (followingStep (setFieldVal g pos true) pos modifier)) := by
              rw [hperm.mem_iff]
              exact List.mem_map.2 ⟨i, List.mem_range.2 hi, rfl⟩
            apply h2 _ hmem hps
            rw [hposn, hnext]
            exact ⟨rest', htail⟩
        | true =>
          simp only [LoopPost, Post]
          rintro ⟨c, hc, hps, g2, hsucc, rfl⟩
          obtain ⟨hcf, hck⟩ := hcands c hc hps
          obtain ⟨rest', hcomp', hsx, hsy, hw2, hsteps, hmono, hvis⟩ := hsucc
          have hcomp := completes_cons g pos final c.position rest' hw hv hf hck hcomp'
          exact success_record g pos final counter g2 (c.position :: rest') hw hcomp hsx hsy hw2
            (fun k p hk => hsteps k p hk) hmono hvis

/-! ## Tours and the freshly reset state -/

theorem isPath_of_chain (final : coord) (rest : List coord) :
    ∀ pos : coord, (pos :: rest).Chain' knightMove →
      (final ≠ invalid → ∀ q, (pos :: rest).getLast? = some q → knightMove q final) →
      IsPath final pos rest := by
  induction rest with
  | nil =>
    intro pos _ hlast
    show knightMove pos final ∨ final = invalid
    by_cases hf : final = invalid
    · exact Or.inr hf
    · exact Or.inl (hlast hf pos rfl)
  | cons next rest' ih =>
    intro pos hch hlast
    rw [List.chain'_cons] at hch
    refine ⟨hch.1, ih next hch.2 ?_⟩
    intro hf q hq
    apply hlast hf q
    rw [List.getLast?_cons_cons]; exact hq

theorem isPath_consecutive (final : coord) (rest : List coord) :
    ∀ (pos : coord), IsPath final pos rest → ∀ (k : Nat) (a b : coord),
      (pos :: rest)[k]? = some a → (pos :: rest)[k + 1]? = some b → knightMove a b := by
  induction rest with
  | nil =>
    intro pos _ k a b _ hb
    simp at hb
  | cons next rest' ih =>
    intro pos hp k a b ha hb
    cases k with
    | zero =>
      simp only [List.getElem?_cons_zero, Option.some.injEq, zero_add, List.getElem?_cons_succ] at ha hb
      subst ha; subst hb
      exact hp.1
    | succ k =>
      rw [List.getElem?_cons_succ] at ha hb
      exact ih next hp.2 k a b ha hb

theorem isPath_last (final : coord) (rest : List coord) :
    ∀ (pos : coord), IsPath final pos rest → ∀ q : coord,
      (pos :: rest)[rest.length]? = some q → finalOK final q := by
  induction rest with
  | nil =>
    intro pos hp q hq
    simp only [List.length_nil, List.getElem?_cons_zero, Option.some.injEq] at hq
    subst hq; exact hp
  | cons next rest' ih =>
    intro pos hp q hq
    simp only [List.length_cons, List.getElem?_cons_succ] at hq
    exact ih next hp.2 q hq

/-- The offsets of distinct on-board squares, as many as the board has cells, are all the
offsets of the block. -/
theorem cellIndex_perm (g : Globals) (path : List coord)
    (hvalid : ∀ p ∈ path, checkValid g p = true) (hnd : path.Nodup)
    (hlen : path.length = (g.sizeX * g.sizeY).toNat) :
    (path.map (fun p => (cellIndex g p).toNat)).Perm (List.range (g.sizeX * g.sizeY).toNat) := by
  apply List.Subperm.perm_of_length_le
  · apply List.subperm_of_subset
    · apply List.Nodup.map_on _ hnd
      intro p hp q hq h
      apply cellIndex_inj g p q (hvalid p hp) (hvalid q hq)
      have h1 := cellIndex_nonneg g p (hvalid p hp)
      have h2 := cellIndex_nonneg g q (hvalid q hq)
      omega
    · intro n hn
      rw [List.mem_map] at hn
      obtain ⟨p, hp, rfl⟩ := hn
      exact List.mem_range.2 (cellIndex_toNat_lt g p (hvalid p hp))
  · simp [hlen]

theorem path_covers (g : Globals) (path : List coord)
    (hvalid : ∀ p ∈ path, checkValid g p = true) (hnd : path.Nodup)
    (hlen : path.length = (g.sizeX * g.sizeY).toNat) (p : coord) (hp : checkValid g p = true) :
    p ∈ path := by
  have hperm := cellIndex_perm g path hvalid hnd hlen
  have hmem : (cellIndex g p).toNat ∈ path.map (fun p => (cellIndex g p).toNat) := by
    rw [hperm.mem_iff]
    exact List.mem_range.2 (cellIndex_toNat_lt g p hp)
  rw [List.mem_map] at hmem
  obtain ⟨q, hq, he⟩ := hmem
  have h1 := cellIndex_nonneg g p hp
  have h2 := cellIndex_nonneg g q (hvalid q hq)
  have : q = p := cellIndex_inj g q p (hvalid q hq) hp (by omega)
  exact this ▸ hq

theorem unvisited_blank (g : Globals)
    (hb : g.board = List.replicate (g.sizeX * g.sizeY).toNat false) :
    unvisited g = (g.sizeX * g.sizeY).toNat := by
  unfold unvisited; rw [hb]; simp

theorem getFieldVal_blank (g : Globals)
    (hb : g.board = List.replicate (g.sizeX * g.sizeY).toNat false) (p : coord)
    (hp : checkValid g p = true) : getFieldVal g p = false := by
  unfold getFieldVal
  rw [if_pos hp, hb]
  have h0 := cellIndex_nonneg g p hp
  have h1 := cellIndex_toNat_lt g p hp
  simp [load, h0, List.getD_eq_getElem?_getD, List.getElem?_replicate, h1]

theorem wellSized_blank (g : Globals)
    (hb : g.board = List.replicate (g.sizeX * g.sizeY).toNat false)
    (hs : g.steps.length = (g.sizeX * g.sizeY).toNat) : WellSized g :=
  ⟨by rw [hb]; simp, hs⟩

theorem completes_of_isTour (g : Globals)
    (hb : g.board = List.replicate (g.sizeX * g.sizeY).toNat false)
    (start target : coord) (tour : List coord) (h : IsTour g start target tour) :
    ∃ rest, tour = start :: rest ∧ Completes g start target rest := by
  obtain ⟨hlen, hnd, hvalid, hhead, hchain, hlast⟩ := h
  cases tour with
  | nil => simp at hhead
  | cons a rest =>
    simp only [List.head?_cons, Option.some.injEq] at hhead
    subst hhead
    refine ⟨rest, rfl, isPath_of_chain target rest a hchain hlast, ?_, hnd, ?_⟩
    · intro p hp
      exact ⟨hvalid p hp, getFieldVal_blank g hb p (hvalid p hp)⟩
    · rw [unvisited_blank g hb, ← hlen]; simp

/-- Completeness of the search on an all-unvisited board: if a tour exists, a call with
enough fuel returns true. -/
theorem backTrackingAlgorithm_complete (qsort : List extCoord → List extCoord)
    (hq : ∀ l, (qsort l).Perm l) (g : Globals)
    (hb : g.board = List.replicate (g.sizeX * g.sizeY).toNat false)
    (hs : g.steps.length = (g.sizeX * g.sizeY).toNat)
    (start target : coord) (modifier : Int) (hm : 0 ≤ modifier) (hmb : modifier ≤ 2147483641)
    (tour : List coord) (htour : IsTour g start target tour)
    (fuel : Nat) (hfuel : (g.sizeX * g.sizeY).toNat ≤ fuel) :
    ∃ g', backTrackingAlgorithm qsort fuel g start target 0 modifier = .ok (true, g') := by
  obtain ⟨rest, -, hcomp⟩ := completes_of_isTour g hb start target tour htour
  obtain ⟨hv, hf⟩ := hcomp.2.1 start (List.mem_cons_self _ _)
  have hu := unvisited_blank g hb
  have hN : 0 ≤ g.sizeX * g.sizeY := by
    have := cellIndex_nonneg g start hv
    have := cellIndex_lt g start hv
    omega
  have hpost := backTrackingAlgorithm_post qsort hq target modifier hm hmb fuel g start 0
    (wellSized_blank g hb hs) hv hf (by rw [hu, Int.toNat_of_nonneg hN]; simp)
  revert hpost
  cases backTrackingAlgorithm qsort fuel g start target 0 modifier with
  | error e =>
    simp only [Post]
    rintro ⟨-, h⟩
    omega
  | ok r =>
    obtain ⟨b, g'⟩ := r
    cases b with
    | false =>
      simp only [Post]
      rintro ⟨-, h⟩
      exact absurd ⟨rest, hcomp⟩ h
    | true =>
      intro _
      exact ⟨g', rfl⟩

/-- Soundness of the search on an all-unvisited board: a call that returns true has recorded
a tour. -/
theorem backTrackingAlgorithm_sound (qsort : List extCoord → List extCoord)
    (hq : ∀ l, (qsort l).Perm l) (g : Globals)
    (hb : g.board = List.replicate (g.sizeX * g.sizeY).toNat false)
    (hs : g.steps.length = (g.sizeX * g.sizeY).toNat)
    (start target : coord) (hv : checkValid g start = true) (modifier : Int) (hm : 0 ≤ modifier)
    (hmb : modifier ≤ 2147483641) (fuel : Nat) (g' : Globals)
    (h : backTrackingAlgorithm qsort fuel g start target 0 modifier = .ok (true, g')) :
    Success g start target 0 g' := by
  have hu := unvisited_blank g hb
  have hN : 0 ≤ g.sizeX * g.sizeY := by
    have := cellIndex_nonneg g start hv
    have := cellIndex_lt g start hv
    omega
  have hpost := backTrackingAlgorithm_post qsort hq target modifier hm hmb fuel g start 0
    (wellSized_blank g hb hs) hv (getFieldVal_blank g hb start hv)
    (by rw [hu, Int.toNat_of_nonneg hN]; simp)
  rw [h] at hpost
  exact hpost

theorem checkValid_congr (g g' : Globals) (hx : g'.sizeX = g.sizeX) (hy : g'.sizeY = g.sizeY)
    (p : coord) : checkValid g' p = checkValid g p := by
  unfold checkValid; rw [hx, hy]

/-- What the recorded steps look like after a successful search from an all-unvisited board. -/
theorem success_properties (g : Globals)
    (hb : g.board = List.replicate (g.sizeX * g.sizeY).toNat false)
    (start target : coord) (g' : Globals) (h : Success g start target 0 g') :
    (g'.sizeX = g.sizeX ∧ g'.sizeY = g.sizeY)
    ∧ (∀ p, checkValid g' p = true → 0 ≤ stepAt g' p ∧ stepAt g' p < g.sizeX * g.sizeY)
    ∧ (∀ p q, checkValid g' p = true → checkValid g' q = true →
        stepAt g' p = stepAt g' q → p = q)
    ∧ (∀ k : Int, 0 ≤ k → k < g.sizeX * g.sizeY → ∃ p, checkValid g' p = true ∧ stepAt g' p = k)
    ∧ stepAt g' start = 0
    ∧ (∀ p q, checkValid g' p = true → checkValid g' q = true →
        stepAt g' q = stepAt g' p + 1 → knightMove p q)
    ∧ (∀ p, checkValid g' p = true → stepAt g' p = g.sizeX * g.sizeY - 1 → finalOK target p)
    ∧ (∀ p, checkValid g' p = true → getFieldVal g' p = true) := by
  obtain ⟨rest, ⟨hpath, hfree, hnd, hlen⟩, hsx, hsy, -, hsteps, -, hvis⟩ := h
  have hcv : ∀ p, checkValid g' p = checkValid g p := checkValid_congr g g' hsx hsy
  have hu := unvisited_blank g hb
  have hlen' : (start :: rest).length = (g.sizeX * g.sizeY).toNat := by
    rw [← hu, ← hlen]; simp
  have hcover := path_covers g (start :: rest) (fun p hp => (hfree p hp).1) hnd hlen'
  have hK : ∀ p, checkValid g' p = true →
      ∃ k : Nat, (start :: rest)[k]? = some p ∧ stepAt g' p = (k : Int)
        ∧ k < (g.sizeX * g.sizeY).toNat := by
    intro p hp
    rw [hcv] at hp
    obtain ⟨k, hk⟩ := List.mem_iff_getElem?.1 (hcover p hp)
    refine ⟨k, hk, by rw [hsteps k p hk]; simp, ?_⟩
    obtain ⟨hlt, -⟩ := List.getElem?_eq_some.1 hk
    rw [← hlen']; exact hlt
  refine ⟨⟨hsx, hsy⟩, ?_, ?_, ?_, ?_, ?_, ?_, ?_⟩
  · intro p hp
    obtain ⟨k, -, hs, hlt⟩ := hK p hp
    rw [hs]; omega
  · intro p q hp hq he
    obtain ⟨k, hk, hs, -⟩ := hK p hp
    obtain ⟨j, hj, ht, -⟩ := hK q hq
    have : k = j := by rw [hs, ht] at he; exact_mod_cast he
    subst this
    rw [hk] at hj
    exact Option.some.inj hj
  · intro k hk0 hkN
    have hlt : k.toNat < (start :: rest).length := by rw [hlen']; omega
    refine ⟨(start :: rest)[k.toNat], ?_, ?_⟩
    · rw [hcv]; exact (hfree _ (List.getElem_mem _)).1
    · rw [hsteps k.toNat _ (List.getElem?_eq_getElem hlt)]
      rw [Int.toNat_of_nonneg hk0]; simp
  · rw [hsteps 0 start (by simp)]; simp
  · intro p q hp hq he
    obtain ⟨k, hk, hs, -⟩ := hK p hp
    obtain ⟨j, hj, ht, -⟩ := hK q hq
    have : j = k + 1 := by rw [hs, ht] at he; exact_mod_cast he
    subst this
    exact isPath_consecutive target rest start hpath k p q hk hj
  · intro p hp he
    obtain ⟨k, hk, hs, hlt⟩ := hK p hp
    have : k = rest.length := by
      rw [hs] at he
      have h1 : (rest.length : Int) + 1 = ((g.sizeX * g.sizeY).toNat : Int) := by
        rw [← hu, ← hlen]; simp
      omega
    subst this
    exact isPath_last target rest start hpath p hk
  · intro p hp
    rw [hcv] at hp
    exact hvis p (hcover p hp)

theorem resetBoardAndSteps_blank (sizeX sizeY : Int) :
    (resetBoardAndSteps sizeX sizeY).board
      = List.replicate ((resetBoardAndSteps sizeX sizeY).sizeX
          * (resetBoardAndSteps sizeX sizeY).sizeY).toNat false := rfl

theorem resetBoardAndSteps_steps (sizeX sizeY : Int) :
    (resetBoardAndSteps sizeX sizeY).steps.length
      = ((resetBoardAndSteps sizeX sizeY).sizeX
          * (resetBoardAndSteps sizeX sizeY).sizeY).toNat := by
  simp [resetBoardAndSteps]

theorem startBackTracking_true (qsort : List extCoord → List extCoord) (fuel : Nat)
    (g : Globals) (initial : coord) (g' : Globals)
    (h : startBackTracking qsort fuel g initial = .ok (true, g')) :
    backTrackingAlgorithm qsort fuel g initial invalid 0 0 = .ok (true, g') := by
  unfold startBackTracking at h
  split at h
  · simp at h
  · exact h

theorem startBackTrackingClosed_true (qsort : List extCoord → List extCoord) (fuel : Nat)
    (g : Globals) (initial : coord) (g' : Globals)
    (h : startBackTrackingClosed qsort fuel g initial = .ok (true, g')) :
    backTrackingAlgorithm qsort fuel g initial initial 0 0 = .ok (true, g') := by
  unfold startBackTrackingClosed at h
  split at h
  · simp at h
  · exact h

/-! ## The claims -/

/-- C1. Soundness of a found tour: from the freshly reset state and an on-board initial
square (so that `sizeX ≥ 1` and `sizeY ≥ 1`), whenever `startBackTracking` or
`startBackTrackingClosed` returns true, the recorded steps over the on-board squares are a
bijection onto `0 .. sizeX*sizeY - 1` (in range, injective, surjective), the initial square
holds step 0, and squares holding consecutive steps are a knight move apart. -/
theorem found_tour_is_sound (qsort : List extCoord → List extCoord)
    (hq : ∀ l, (qsort l).Perm l) (sizeX sizeY : Int)
    (initial : coord) (hinit : checkValid (resetBoardAndSteps sizeX sizeY) initial = true)
    (fuel : Nat) (g' : Globals)
    (h : startBackTracking qsort fuel (resetBoardAndSteps sizeX sizeY) initial = .ok (true, g')
      ∨ startBackTrackingClosed qsort fuel (resetBoardAndSteps sizeX sizeY) initial
          = .ok (true, g')) :
    (g'.sizeX = sizeX ∧ g'.sizeY = sizeY)
    ∧ (∀ p, checkValid g' p = true → 0 ≤ stepAt g' p ∧ stepAt g' p < sizeX * sizeY)
    ∧ (∀ p q, checkValid g' p = true → checkValid g' q = true →
        stepAt g' p = stepAt g' q → p = q)
    ∧ (∀ k : Int, 0 ≤ k → k < sizeX * sizeY → ∃ p, checkValid g' p = true ∧ stepAt g' p = k)
    ∧ stepAt g' initial = 0
    ∧ (∀ p q, checkValid g' p = true → checkValid g' q = true →
        stepAt g' q = stepAt g' p + 1 → knightMove p q) := by
  have key : ∃ target, Success (resetBoardAndSteps sizeX sizeY) initial target 0 g' := by
    rcases h with h | h
    · exact ⟨invalid, backTrackingAlgorithm_sound qsort hq _ (resetBoardAndSteps_blank _ _)
        (resetBoardAndSteps_steps _ _) initial invalid hinit 0 (le_refl 0) (by omega) fuel g'
        (startBackTracking_true qsort fuel _ initial g' h)⟩
    · exact ⟨initial, backTrackingAlgorithm_sound qsort hq _ (resetBoardAndSteps_blank _ _)
        (resetBoardAndSteps_steps _ _) initial initial hinit 0 (le_refl 0) (by omega) fuel g'
        (startBackTrackingClosed_true qsort fuel _ initial g' h)⟩
  obtain ⟨target, hs⟩ := key
  obtain ⟨h1, h2, h3, h4, h5, h6, -, -⟩ :=
    success_properties _ (resetBoardAndSteps_blank sizeX sizeY) initial target g' hs
  exact ⟨h1, h2, h3, h4, h5, h6⟩

/-- C2. Closed-tour wrap adjacency: from the freshly reset state and an on-board initial
square, whenever `startBackTrackingClosed` returns true, the square whose recorded step is
`sizeX*sizeY - 1` is a knight move away from the initial square. -/
theorem closed_tour_wraps (qsort : List extCoord → List extCoord)
    (hq : ∀ l, (qsort l).Perm l) (sizeX sizeY : Int)
    (initial : coord) (hinit : checkValid (resetBoardAndSteps sizeX sizeY) initial = true)
    (fuel : Nat) (g' : Globals)
    (h : startBackTrackingClosed qsort fuel (resetBoardAndSteps sizeX sizeY) initial
          = .ok (true, g')) :
    (∃ p, checkValid g' p = true ∧ stepAt g' p = sizeX * sizeY - 1)
    ∧ ∀ p, checkValid g' p = true → stepAt g' p = sizeX * sizeY - 1 → knightMove p initial := by
  have hs := backTrackingAlgorithm_sound qsort hq _ (resetBoardAndSteps_blank _ _)
    (resetBoardAndSteps_steps _ _) initial initial hinit 0 (le_refl 0) (by omega) fuel g'
    (startBackTrackingClosed_true qsort fuel _ initial g' h)
  obtain ⟨-, -, -, h4, -, -, h7, -⟩ :=
    success_properties _ (resetBoardAndSteps_blank sizeX sizeY) initial initial g' hs
  have hN : 0 < sizeX * sizeY := by
    have h0 := cellIndex_nonneg _ initial hinit
    have h1 : cellIndex (resetBoardAndSteps sizeX sizeY) initial < sizeX * sizeY :=
      cellIndex_lt _ initial hinit
    omega
  have hlt : sizeX * sizeY - 1 < sizeX * sizeY := by omega
  refine ⟨h4 (sizeX * sizeY - 1) (by omega) hlt, ?_⟩
  intro p hp he
  rcases h7 p hp he with hk | hinv
  · exact hk
  · exfalso
    rw [checkValid_iff] at hinit
    rw [hinv] at hinit
    simp [invalid] at hinit

/-- C3. Completeness of the search: on a board whose squares are all unvisited, for a start
square and any target (the sentinel or a square), if a tour exists (all squares of the board,
pairwise distinct, beginning at the start, consecutive squares a knight move apart, and unless
the target is the sentinel ending a knight move from it; its existence makes the start
on-board and `sizeX ≥ 1`, `sizeY ≥ 1`), then
`backTrackingAlgorithm(start, target, 0, 0)` returns true, given fuel for `sizeX*sizeY`
nested calls. -/
theorem search_is_complete (qsort : List extCoord → List extCoord)
    (hq : ∀ l, (qsort l).Perm l) (g : Globals)
    (hb : g.board = List.replicate (g.sizeX * g.sizeY).toNat false)
    (hs : g.steps.length = (g.sizeX * g.sizeY).toNat)
    (start target : coord)
    (tour : List coord) (htour : IsTour g start target tour)
    (fuel : Nat) (hfuel : (g.sizeX * g.sizeY).toNat ≤ fuel) :
    ∃ g', backTrackingAlgorithm qsort fuel g start target 0 0 = .ok (true, g') := by
  exact backTrackingAlgorithm_complete qsort hq g hb hs start target 0 (le_refl 0) (by omega)
    tour htour
    fuel hfuel

theorem tmod_two_ne_zero_iff (n : Int) : Int.tmod n 2 ≠ 0 ↔ Odd n := by
  rw [← Int.not_even_iff_odd, even_iff_two_dvd]
  constructor
  · intro h hd; exact h (Int.tmod_eq_zero_of_dvd hd)
  · intro h h0; exact h (Int.dvd_of_tmod_eq_zero h0)

theorem sortByKey_perm (key : extCoord → Int) (l : List extCoord) :
    (sortByKey key l).Perm l :=
  List.perm_insertionSort _ l

/-- C4. Open-tour pre-check: on a board with `sizeX` and `sizeY` both odd and an initial square with
`initial.x + initial.y` odd, `startBackTracking` returns false with the globals (board and
steps) exactly as they were, whatever the fuel: also with fuel `0`, which admits no call of
`backTrackingAlgorithm`. -/
theorem open_precheck_rejects (qsort : List extCoord → List extCoord) (fuel : Nat) (g : Globals)
    (initial : coord) (hx : Odd g.sizeX) (hy : Odd g.sizeY) (hi : Odd (initial.x + initial.y)) :
    startBackTracking qsort fuel g initial = .ok (false, g) := by
  unfold startBackTracking
  rw [if_pos]
  exact ⟨⟨(tmod_two_ne_zero_iff _).2 hx, (tmod_two_ne_zero_iff _).2 hy⟩,
    (tmod_two_ne_zero_iff _).2 hi⟩

theorem open_precheck_rejects_witness :
    (Odd (resetBoardAndSteps 3 5).sizeX ∧ Odd (resetBoardAndSteps 3 5).sizeY
      ∧ Odd ((⟨2, 1⟩ : coord).x + (⟨2, 1⟩ : coord).y))
    ∧ startBackTracking (sortByKey (fun c => c.possibleSteps)) 0 (resetBoardAndSteps 3 5) ⟨2, 1⟩
        = .ok (false, resetBoardAndSteps 3 5) :=
  ⟨⟨by decide, by decide, by decide⟩,
    open_precheck_rejects _ 0 (resetBoardAndSteps 3 5) ⟨2, 1⟩ (by decide) (by decide) (by decide)⟩

/-- C5 (the code departs from the claim). On the 6x4 board, whose `sizeY` is 4, the pre-check of
`startBackTrackingClosed` does not fire: the call is a call of `backTrackingAlgorithm`, and
with fuel `0`, which admits no such call, it does not return. -/
theorem closed_precheck_ignores_sizeY (qsort : List extCoord → List extCoord) :
    (∀ fuel, startBackTrackingClosed qsort fuel (resetBoardAndSteps 6 4) ⟨0, 0⟩
        = backTrackingAlgorithm qsort fuel (resetBoardAndSteps 6 4) ⟨0, 0⟩ ⟨0, 0⟩ 0 0)
    ∧ startBackTrackingClosed qsort 0 (resetBoardAndSteps 6 4) ⟨0, 0⟩ = .error .outOfFuel := by
  have hcheck : ¬ ((Int.tmod (resetBoardAndSteps 6 4).sizeX 2 ≠ 0
        ∧ Int.tmod (resetBoardAndSteps 6 4).sizeY 2 ≠ 0)
      ∨ ((resetBoardAndSteps 6 4).sizeX = 1 ∨ (resetBoardAndSteps 6 4).sizeX = 2
        ∨ (resetBoardAndSteps 6 4).sizeX = 4)
      ∨ ((resetBoardAndSteps 6 4).sizeX = 3 ∧ ((resetBoardAndSteps 6 4).sizeY = 4
        ∨ (resetBoardAndSteps 6 4).sizeY = 6 ∨ (resetBoardAndSteps 6 4).sizeY = 8))) := by
    decide
  constructor
  · intro fuel
    unfold startBackTrackingClosed
    rw [if_neg hcheck]
    rfl
  · unfold startBackTrackingClosed
    rw [if_neg hcheck]
    rfl

/-- C6. Closed-tour pre-check, odd boards: on a board with `sizeX` and `sizeY` both odd, for every
initial square, `startBackTrackingClosed` returns false with the globals (board and steps)
exactly as they were, whatever the fuel: also with fuel `0`, which admits no call of
`backTrackingAlgorithm`. -/
theorem closed_precheck_rejects_odd (qsort : List extCoord → List extCoord) (fuel : Nat)
    (g : Globals) (initial : coord) (hx : Odd g.sizeX) (hy : Odd g.sizeY) :
    startBackTrackingClosed qsort fuel g initial = .ok (false, g) := by
  unfold startBackTrackingClosed
  rw [if_pos]
  exact Or.inl ⟨(tmod_two_ne_zero_iff _).2 hx, (tmod_two_ne_zero_iff _).2 hy⟩

theorem closed_precheck_rejects_odd_witness :
    (Odd (resetBoardAndSteps 3 3).sizeX ∧ Odd (resetBoardAndSteps 3 3).sizeY)
    ∧ startBackTrackingClosed (sortByKey (fun c => c.possibleSteps)) 0 (resetBoardAndSteps 3 3)
        ⟨1, 1⟩ = .ok (false, resetBoardAndSteps 3 3) :=
  ⟨⟨by decide, by decide⟩,
    closed_precheck_rejects_odd _ 0 (resetBoardAndSteps 3 3) ⟨1, 1⟩ (by decide) (by decide)⟩

/-- C8. Trivial board: with `sizeX = sizeY = 1` and the freshly reset state,
`startBackTracking((0,0))` returns true (one level of calls suffices), and afterwards the
step recorded for `(0,0)` is 0 and the square is marked visited. -/
theorem trivial_board_solved (qsort : List extCoord → List extCoord) (fuel : Nat) :
    ∃ g', startBackTracking qsort (fuel + 1) (resetBoardAndSteps 1 1) ⟨0, 0⟩ = .ok (true, g')
      ∧ stepAt g' ⟨0, 0⟩ = 0 ∧ getFieldVal g' ⟨0, 0⟩ = true :=
  ⟨{ sizeX := 1, sizeY := 1, board := [true], steps := [0] }, rfl, rfl, rfl⟩

/-! ## The colouring argument behind the open-tour pre-check -/

theorem generatedMove_iff (a b : coord) : generatedMove a b ↔ knightMove a b := by
  constructor
  · rintro ⟨i, hi, rfl⟩
    exact getFieldByNumber_knight a (i : Int) 0 (by omega) (le_refl 0) (by omega)
  · intro h
    exact knight_getFieldByNumber a b 0 (le_refl 0) (by omega) h

theorem sum_cellSign_range (n : Nat) :
    ((List.range n).map cellSign).sum = if n % 2 = 0 then 0 else 1 := by
  induction n with
  | zero => simp
  | succ n ih =>
    rw [List.range_succ, List.map_append, List.sum_append, ih]
    simp only [List.map_cons, List.map_nil, List.sum_cons, List.sum_nil, cellSign]
    split <;> split <;> omega

/-- On a board of odd width the colour of an on-board square is the parity of its offset. -/
theorem cellSign_cellIndex (g : Globals) (hx : Odd g.sizeX) (p : coord)
    (hp : checkValid g p = true) :
    cellSign (cellIndex g p).toNat = if (p.x + p.y) % 2 = 0 then 1 else -1 := by
  have h0 := cellIndex_nonneg g p hp
  obtain ⟨m, hm⟩ := hx
  have hmul : p.y * g.sizeX = 2 * (p.y * m) + p.y := by rw [hm]; ring
  unfold cellSign
  unfold cellIndex at h0 ⊢
  have hpar : ((p.y * g.sizeX + p.x).toNat % 2 = 0) ↔ ((p.x + p.y) % 2 = 0) := by omega
  by_cases h : (p.x + p.y) % 2 = 0
  · rw [if_pos h, if_pos (hpar.2 h)]
  · rw [if_neg h, if_neg (fun h' => h (hpar.1 h'))]

theorem knightMove_flips (a b : coord) (h : knightMove a b) :
    (if (b.x + b.y) % 2 = 0 then (1 : Int) else -1)
      = - (if (a.x + a.y) % 2 = 0 then (1 : Int) else -1) := by
  rw [knightMove_iff] at h
  split <;> split <;> omega

/-- Along a knight path the colours alternate, so they cancel in pairs. -/
theorem sum_colour_chain (rest : List coord) :
    ∀ a : coord, (a :: rest).Chain' knightMove →
      ((a :: rest).map (fun p : coord => if (p.x + p.y) % 2 = 0 then (1 : Int) else -1)).sum
        = if (rest.length + 1) % 2 = 0 then 0
          else (if (a.x + a.y) % 2 = 0 then (1 : Int) else -1) := by
  induction rest with
  | nil => intro a _; simp
  | cons b rest' ih =>
    intro a hch
    rw [List.chain'_cons] at hch
    have hflip := knightMove_flips a b hch.1
    rw [List.map_cons, List.sum_cons, ih b hch.2, hflip]
    simp only [List.length_cons]
    split <;> split <;> omega

/-- No open tour starts on a square of odd coordinate sum of an odd-by-odd board. -/
theorem no_tour_from_minority_colour (g : Globals) (start : coord)
    (hx : Odd g.sizeX) (hy : Odd g.sizeY) (hi : Odd (start.x + start.y))
    (tour : List coord) (htour : IsOpenTour g start tour) : False := by
  obtain ⟨hlen, hnd, hvalid, hhead, hchain⟩ := htour
  have hchain' : tour.Chain' knightMove :=
    hchain.imp (fun a b h => (generatedMove_iff a b).1 h)
  cases tour with
  | nil => simp at hhead
  | cons a rest =>
    simp only [List.head?_cons, Option.some.injEq] at hhead
    subst hhead
    have hv := hvalid a (List.mem_cons_self _ _)
    have hN0 := cellIndex_nonneg g a hv
    have hN1 := cellIndex_lt g a hv
    have hodd : (g.sizeX * g.sizeY).toNat % 2 = 1 := by
      have : Odd (g.sizeX * g.sizeY) := Int.odd_mul.2 ⟨hx, hy⟩
      rw [Int.odd_iff] at this
      omega
    -- the sum of the colours, counted along the tour
    have h1 := sum_colour_chain rest a hchain'
    have hlen' : (rest.length + 1) % 2 = 1 := by
      simp only [List.length_cons] at hlen; omega
    rw [Int.odd_iff] at hi
    rw [if_neg (by omega), if_neg (by omega)] at h1
    -- the same sum, counted over the offsets of the block
    have hperm := cellIndex_perm g (a :: rest) hvalid hnd hlen
    have h2 := (hperm.map cellSign).sum_eq
    rw [sum_cellSign_range, if_neg (by omega), List.map_map] at h2
    have h3 : (a :: rest).map (cellSign ∘ fun p => (cellIndex g p).toNat)
        = (a :: rest).map (fun p : coord => if (p.x + p.y) % 2 = 0 then (1 : Int) else -1) := by
      apply List.map_congr_left
      intro p hp
      exact cellSign_cellIndex g hx p (hvalid p hp)
    rw [h3, h1] at h2
    omega

/-- C7. The open-tour pre-check never rejects a solvable instance: for every start square (a tour
can only begin on the board), (1) if `sizeX` and `sizeY` are odd and `start.x + start.y` is odd, no sequence of all
`sizeX*sizeY` squares, pairwise distinct, beginning at the start, has consecutive squares a
`getFieldByNumber` move apart; hence (2) whenever `startBackTracking` returns false at the
pre-check (the only way it returns with fuel `0`), no open tour from the start exists. -/
theorem open_precheck_never_rejects_solvable (g : Globals) (start : coord) :
    ((Odd g.sizeX ∧ Odd g.sizeY) ∧ Odd (start.x + start.y) →
        ¬ ∃ tour, IsOpenTour g start tour)
    ∧ (∀ qsort, startBackTracking qsort 0 g start = .ok (false, g) →
        ¬ ∃ tour, IsOpenTour g start tour) := by
  constructor
  · rintro ⟨⟨hx, hy⟩, hi⟩ ⟨tour, htour⟩
    exact no_tour_from_minority_colour g start hx hy hi tour htour
  · intro qsort hret
    unfold startBackTracking at hret
    split at hret
    · rename_i hcheck
      obtain ⟨⟨hx, hy⟩, hi⟩ := hcheck
      rintro ⟨tour, htour⟩
      exact no_tour_from_minority_colour g start ((tmod_two_ne_zero_iff _).1 hx)
        ((tmod_two_ne_zero_iff _).1 hy) ((tmod_two_ne_zero_iff _).1 hi) tour htour
    · simp [backTracking, backTrackingAlgorithm] at hret

theorem open_precheck_never_rejects_solvable_witness :
    checkValid (resetBoardAndSteps 3 3) ⟨1, 0⟩ = true
    ∧ ((Odd (resetBoardAndSteps 3 3).sizeX ∧ Odd (resetBoardAndSteps 3 3).sizeY)
        ∧ Odd ((⟨1, 0⟩ : coord).x + (⟨1, 0⟩ : coord).y))
    ∧ startBackTracking (sortByKey (fun c => c.possibleSteps)) 0 (resetBoardAndSteps 3 3) ⟨1, 0⟩
        = .ok (false, resetBoardAndSteps 3 3)
    ∧ ¬ ∃ tour, IsOpenTour (resetBoardAndSteps 3 3) ⟨1, 0⟩ tour :=
  ⟨by decide, ⟨⟨by decide, by decide⟩, by decide⟩, rfl,
    (open_precheck_never_rejects_solvable (resetBoardAndSteps 3 3) ⟨1, 0⟩).1
      ⟨⟨by decide, by decide⟩, by decide⟩⟩

/-! ## Concrete boards -/

theorem isTour_tour3x4 : IsTour (resetBoardAndSteps 3 4) ⟨0, 0⟩ invalid tour3x4 :=
  ⟨by decide, by decide, by decide, rfl,
    by simp only [tour3x4, List.chain'_cons, List.chain'_singleton, and_true]; decide,
    fun h => absurd rfl h⟩

theorem isTour_tour5x5 : IsTour (resetBoardAndSteps 5 5) ⟨0, 0⟩ invalid tour5x5 :=
  ⟨by decide, by decide, by decide, rfl,
    by simp only [tour5x5, List.chain'_cons, List.chain'_singleton, and_true]; decide,
    fun h => absurd rfl h⟩

theorem isTour_tour6x6 : IsTour (resetBoardAndSteps 6 6) ⟨0, 0⟩ ⟨0, 0⟩ tour6x6 := by
  refine ⟨by decide, by decide, by decide, rfl,
    by simp only [tour6x6, List.chain'_cons, List.chain'_singleton, and_true]; decide, ?_⟩
  intro _ q hq
  have : q = ⟨1, 2⟩ := by
    simp only [tour6x6, List.getLast?_cons_cons] at hq
    simpa using hq.symm
  subst this
  decide

theorem found_tour_is_sound_witness :
    (∀ l, (sortByKey (fun c => c.possibleSteps) l).Perm l)
    ∧ checkValid (resetBoardAndSteps 3 4) ⟨0, 0⟩ = true
    ∧ (startBackTracking (sortByKey (fun c => c.possibleSteps)) 12 (resetBoardAndSteps 3 4) ⟨0, 0⟩
        = .ok (true, record3x4))
    ∧ stepAt record3x4 ⟨0, 0⟩ = 0 :=
  ⟨sortByKey_perm _, by decide, by rfl,
    (found_tour_is_sound (sortByKey (fun c => c.possibleSteps)) (sortByKey_perm _) 3 4 ⟨0, 0⟩
      (by decide) 12 _ (Or.inl (by rfl))).2.2.2.2.1⟩

-- Here the stand-in sort orders the candidates by their place in `tour6x6`, so the search
-- follows that tour.
set_option maxRecDepth 100000 in
theorem closed_tour_wraps_witness :
    (∀ l, (sortByKey (fun c => (tour6x6.indexOf c.position : Int)) l).Perm l)
    ∧ checkValid (resetBoardAndSteps 6 6) ⟨0, 0⟩ = true
    ∧ (startBackTrackingClosed (sortByKey (fun c => (tour6x6.indexOf c.position : Int))) 36
          (resetBoardAndSteps 6 6) ⟨0, 0⟩
        = .ok (true, record6x6))
    ∧ ((∃ p, checkValid record6x6 p
              = true
            ∧ stepAt record6x6 p
              = 6 * 6 - 1)
      ∧ ∀ p, checkValid record6x6 p
              = true →
          stepAt record6x6 p
              = 6 * 6 - 1 →
          knightMove p ⟨0, 0⟩) :=
  ⟨sortByKey_perm _, by decide, by rfl,
    closed_tour_wraps (sortByKey (fun c => (tour6x6.indexOf c.position : Int)))
      (sortByKey_perm _) 6 6 ⟨0, 0⟩ (by decide) 36 _ (by rfl)⟩

theorem search_is_complete_witness :
    (∀ l, (sortByKey (fun c => c.possibleSteps) l).Perm l)
    ∧ IsTour (resetBoardAndSteps 3 4) ⟨0, 0⟩ invalid tour3x4
    ∧ ((resetBoardAndSteps 3 4).sizeX * (resetBoardAndSteps 3 4).sizeY).toNat ≤ 12
    ∧ ∃ g', backTrackingAlgorithm (sortByKey (fun c => c.possibleSteps)) 12
        (resetBoardAndSteps 3 4) ⟨0, 0⟩ invalid 0 0 = .ok (true, g') :=
  ⟨sortByKey_perm _, isTour_tour3x4, by decide,
    search_is_complete (sortByKey (fun c => c.possibleSteps)) (sortByKey_perm _)
      (resetBoardAndSteps 3 4) (resetBoardAndSteps_blank 3 4) (resetBoardAndSteps_steps 3 4)
      ⟨0, 0⟩ invalid tour3x4 isTour_tour3x4 12 (by decide)⟩

/-- C9. On the 5x5 board with the freshly reset state, `startBackTracking((0,0))` returns true,
given fuel for 25 nested calls. -/
theorem open_tour_5x5_found (qsort : List extCoord → List extCoord)
    (hq : ∀ l, (qsort l).Perm l) (fuel : Nat) (hfuel : 25 ≤ fuel) :
    ∃ g', startBackTracking qsort fuel (resetBoardAndSteps 5 5) ⟨0, 0⟩ = .ok (true, g') := by
  have hcheck : ¬ ((Int.tmod (resetBoardAndSteps 5 5).sizeX 2 ≠ 0
        ∧ Int.tmod (resetBoardAndSteps 5 5).sizeY 2 ≠ 0)
      ∧ Int.tmod ((⟨0, 0⟩ : coord).x + (⟨0, 0⟩ : coord).y) 2 ≠ 0) := by decide
  unfold startBackTracking
  rw [if_neg hcheck]
  exact backTrackingAlgorithm_complete qsort hq (resetBoardAndSteps 5 5)
    (resetBoardAndSteps_blank 5 5) (resetBoardAndSteps_steps 5 5) ⟨0, 0⟩ invalid 0 (le_refl 0)
    (by omega)
    tour5x5 isTour_tour5x5 fuel hfuel

theorem open_tour_5x5_found_witness :
    (∀ l, (sortByKey (fun c => c.possibleSteps) l).Perm l)
    ∧ 25 ≤ 25
    ∧ ∃ g', startBackTracking (sortByKey (fun c => c.possibleSteps)) 25 (resetBoardAndSteps 5 5)
        ⟨0, 0⟩ = .ok (true, g') :=
  ⟨sortByKey_perm _, le_refl 25,
    open_tour_5x5_found (sortByKey (fun c => c.possibleSteps)) (sortByKey_perm _) 25 (le_refl 25)⟩

/-- C10. On the 6x6 board with the freshly reset state, `startBackTrackingClosed((0,0))`
returns true (the pre-check passes and a closed tour is found), given fuel for 36 nested calls. -/
theorem closed_tour_6x6_found (qsort : List extCoord → List extCoord)
    (hq : ∀ l, (qsort l).Perm l) (fuel : Nat) (hfuel : 36 ≤ fuel) :
    ∃ g', startBackTrackingClosed qsort fuel (resetBoardAndSteps 6 6) ⟨0, 0⟩
      = .ok (true, g') := by
  have hcheck : ¬ ((Int.tmod (resetBoardAndSteps 6 6).sizeX 2 ≠ 0
        ∧ Int.tmod (resetBoardAndSteps 6 6).sizeY 2 ≠ 0)
      ∨ ((resetBoardAndSteps 6 6).sizeX = 1 ∨ (resetBoardAndSteps 6 6).sizeX = 2
        ∨ (resetBoardAndSteps 6 6).sizeX = 4)
      ∨ ((resetBoardAndSteps 6 6).sizeX = 3 ∧ ((resetBoardAndSteps 6 6).sizeY = 4
        ∨ (resetBoardAndSteps 6 6).sizeY = 6 ∨ (resetBoardAndSteps 6 6).sizeY = 8))) := by
    decide
  unfold startBackTrackingClosed
  rw [if_neg hcheck]
  exact backTrackingAlgorithm_complete qsort hq (resetBoardAndSteps 6 6)
    (resetBoardAndSteps_blank 6 6) (resetBoardAndSteps_steps 6 6) ⟨0, 0⟩ ⟨0, 0⟩ 0 (le_refl 0)
    (by omega)
    tour6x6 isTour_tour6x6 fuel hfuel

theorem closed_tour_6x6_found_witness :
    (∀ l, (sortByKey (fun c => c.possibleSteps) l).Perm l)
    ∧ 36 ≤ 36
    ∧ ∃ g', startBackTrackingClosed (sortByKey (fun c => c.possibleSteps)) 36
        (resetBoardAndSteps 6 6) ⟨0, 0⟩ = .ok (true, g') :=
  ⟨sortByKey_perm _, le_refl 36,
    closed_tour_6x6_found (sortByKey (fun c => c.possibleSteps)) (sortByKey_perm _) 36
      (le_refl 36)⟩

/-! ## The move generator in detail -/

theorem getFieldByNumber_base (pos : coord) (i r : Nat) (hb : i + r ≤ 2147483648) (k : Nat)
    (hk : k < 8)
    (h : ((i : Int) + (r : Int) + (if (r : Int) ≥ 8 then 4 else 0)) % 8 = (k : Int)) :
    getFieldByNumber pos (i : Int) (r : Int) = translate pos (baseOffsets.getD k ⟨0, 0⟩) := by
  rw [getFieldByNumber_eq pos (i : Int) (r : Int) (by omega) (by omega) (by omega) (k : Int)
    h.symm]
  interval_cases k <;> simp [baseOffsets, translate] <;> omega

theorem offsetFrom_translate (pos d : coord) : offsetFrom pos (translate pos d) = d := by
  cases d
  simp [offsetFrom, translate]

/-- The offsets produced for `i = 0 .. 7` are the canonical ones, rotated by `c`. -/
theorem offsets_rotation (pos : coord) (r : Nat) (hr : r ≤ 2147483641) :
    ∃ c : Nat, c < 8 ∧ (List.range 8).map
        (fun i : Nat => offsetFrom pos (getFieldByNumber pos (i : Int) (r : Int)))
      = (List.range 8).map (fun i : Nat => baseOffsets.getD ((i + c) % 8) ⟨0, 0⟩) := by
  refine ⟨(r + (if (r : Int) ≥ 8 then 4 else 0)) % 8, Nat.mod_lt _ (by omega), ?_⟩
  apply List.map_congr_left
  intro i hi
  have hi8 := List.mem_range.1 hi
  rw [getFieldByNumber_base pos i r (by omega)
    ((i + (r + (if (r : Int) ≥ 8 then 4 else 0)) % 8) % 8)
    (Nat.mod_lt _ (by omega)), offsetFrom_translate]
  split <;> omega

/-- C11, as amended. Rotation preserves the offset set: for every square and every modifier
`r` with `0 ≤ r ≤ 2147483641` (so that the sum `i + r` of line 74 is at most `2^31` for
`i = 0 .. 7`), the offsets `getFieldByNumber(pos, i, r) - pos` for `i = 0 .. 7` are the eight
knight deltas, each exactly once (the list of offsets is a rearrangement of the list of deltas,
which has no repetition); the board plays no part, `getFieldByNumber` does not receive it. -/
theorem rotation_preserves_offsets (pos : coord) (r : Nat) (hr : r ≤ 2147483641) :
    ((List.range 8).map
        (fun i : Nat => offsetFrom pos (getFieldByNumber pos (i : Int) (r : Int)))).Perm
      baseOffsets
    ∧ baseOffsets.Nodup ∧ baseOffsets.length = 8
    ∧ ∀ d, d ∈ baseOffsets ↔ knightMove ⟨0, 0⟩ d := by
  refine ⟨?_, by decide, rfl, ?_⟩
  · obtain ⟨c, hc, he⟩ := offsets_rotation pos r hr
    rw [he]
    interval_cases c <;> decide
  · intro d
    rw [knightMove_iff]
    cases d
    simp [baseOffsets]

theorem rotation_preserves_offsets_witness :
    (2147483641 : Nat) ≤ 2147483641
    ∧ ((List.range 8).map
        (fun i : Nat => offsetFrom ⟨1, 1⟩
          (getFieldByNumber ⟨1, 1⟩ (i : Int) ((2147483641 : Nat) : Int)))).Perm baseOffsets :=
  ⟨le_refl _, (rotation_preserves_offsets ⟨1, 1⟩ 2147483641 (le_refl _)).1⟩

/-- C11 as stated fails at the largest `int`: with modifier 2147483647 the sum of line 74 wraps
for `i ≥ 1`, the field number is negative for `i = 2, 3, 4`, no case of the `switch` matches
and the square comes back unmoved, so the offsets are not the eight deltas; the same happens
from modifier 2147483642 on (there for `i = 7`). -/
theorem rotation_loses_offsets_at_int_max :
    getFieldByNumber ⟨1, 1⟩ 2 2147483647 = ⟨1, 1⟩
    ∧ getFieldByNumber ⟨1, 1⟩ 7 2147483642 = ⟨1, 1⟩
    ∧ ¬ ((List.range 8).map
        (fun i : Nat => offsetFrom ⟨1, 1⟩
          (getFieldByNumber ⟨1, 1⟩ (i : Int) ((2147483647 : Nat) : Int)))).Perm baseOffsets := by
  refine ⟨by decide, by decide, ?_⟩
  · intro h
    have hmem : (⟨0, 0⟩ : coord) ∈ baseOffsets := by
      apply h.mem_iff.1
      decide
    revert hmem
    decide

/-- C12, as amended. Enumeration order of the move generator: for every square and every `i`
in `0 .. 7`, `getFieldByNumber(pos, i, r) = pos + base[(i + r) mod 8]` when `r` is in `0 .. 7`,
and `getFieldByNumber(pos, i, r) = pos + base[(i + r + 4) mod 8]` when `8 ≤ r ≤ 2147483641`
(so that the sum `i + r` of line 74 is at most `2^31`). -/
theorem enumeration_order (pos : coord) (i r : Nat) (hi : i < 8) :
    (r < 8 → getFieldByNumber pos (i : Int) (r : Int)
        = translate pos (baseOffsets.getD ((i + r) % 8) ⟨0, 0⟩))
    ∧ (8 ≤ r → r ≤ 2147483641 → getFieldByNumber pos (i : Int) (r : Int)
        = translate pos (baseOffsets.getD ((i + r + 4) % 8) ⟨0, 0⟩)) := by
  constructor
  · intro hr
    apply getFieldByNumber_base pos i r (by omega) _ (Nat.mod_lt _ (by omega))
    rw [if_neg (by omega)]; omega
  · intro hr hrb
    apply getFieldByNumber_base pos i r (by omega) _ (Nat.mod_lt _ (by omega))
    rw [if_pos (by omega)]; omega

theorem enumeration_order_witness :
    (3 : Nat) < 8
    ∧ getFieldByNumber ⟨4, 4⟩ ((3 : Nat) : Int) ((5 : Nat) : Int)
        = translate ⟨4, 4⟩ (baseOffsets.getD ((3 + 5) % 8) ⟨0, 0⟩)
    ∧ getFieldByNumber ⟨4, 4⟩ ((3 : Nat) : Int) ((2147483641 : Nat) : Int)
        = translate ⟨4, 4⟩ (baseOffsets.getD ((3 + 2147483641 + 4) % 8) ⟨0, 0⟩) :=
  ⟨by decide, (enumeration_order ⟨4, 4⟩ 3 5 (by decide)).1 (by decide),
    (enumeration_order ⟨4, 4⟩ 3 2147483641 (by decide)).2 (by decide) (by decide)⟩

/-- C12 as stated fails at the largest `int`: for `i = 3` and `r = 2147483647` the sum of line
74 wraps to `-2147483646`, the field number is `-2`, no case of the `switch` matches and the
square comes back unmoved, `(1,1)`, where `pos + base[(i + r + 4) mod 8]` is `(0,3)`. -/
theorem enumeration_order_fails_at_int_max :
    (3 : Nat) < 8 ∧ (8 : Nat) ≤ 2147483647
    ∧ getFieldByNumber ⟨1, 1⟩ ((3 : Nat) : Int) ((2147483647 : Nat) : Int) = ⟨1, 1⟩
    ∧ translate ⟨1, 1⟩ (baseOffsets.getD ((3 + 2147483647 + 4) % 8) ⟨0, 0⟩) = ⟨0, 3⟩
    ∧ getFieldByNumber ⟨1, 1⟩ ((3 : Nat) : Int) ((2147483647 : Nat) : Int)
        ≠ translate ⟨1, 1⟩ (baseOffsets.getD ((3 + 2147483647 + 4) % 8) ⟨0, 0⟩) := by
  refine ⟨by decide, by decide, by decide, by decide, by decide⟩

/-! ## Board reads and the onward count -/

/-- C13. Board-state reads: `checkValid(pos)` holds exactly when `0 ≤ pos.x < sizeX` and
`0 ≤ pos.y < sizeY`; `getFieldVal(pos)` is true for every off-board square whatever the board
holds; and for an on-board square it is the stored flag, read at an offset inside the
`sizeX * sizeY` cells of the block. -/
theorem board_reads (g : Globals) (pos : coord) :
    (checkValid g pos = true ↔ (0 ≤ pos.x ∧ pos.x < g.sizeX) ∧ (0 ≤ pos.y ∧ pos.y < g.sizeY))
    ∧ (checkValid g pos = false → getFieldVal g pos = true)
    ∧ (checkValid g pos = true →
        (0 ≤ cellIndex g pos ∧ cellIndex g pos < g.sizeX * g.sizeY)
        ∧ getFieldVal g pos = load g.board (cellIndex g pos)
        ∧ (g.board.length = (g.sizeX * g.sizeY).toNat →
            g.board[(cellIndex g pos).toNat]? = some (getFieldVal g pos))) := by
  refine ⟨checkValid_iff g pos, ?_, ?_⟩
  · intro h
    simp [getFieldVal, h]
  · intro h
    have h0 := cellIndex_nonneg g pos h
    have h1 := cellIndex_lt g pos h
    have hg : getFieldVal g pos = load g.board (cellIndex g pos) := by
      simp [getFieldVal, h]
    refine ⟨⟨h0, h1⟩, hg, ?_⟩
    intro hlen
    have hlt : (cellIndex g pos).toNat < g.board.length := by
      rw [hlen]; exact cellIndex_toNat_lt g pos h
    rw [hg, List.getElem?_eq_getElem hlt]
    simp [load, h0, List.getD_eq_getElem?_getD, List.getElem?_eq_getElem hlt]

theorem board_reads_witness :
    checkValid (resetBoardAndSteps 3 4) ⟨2, 3⟩ = true
    ∧ (resetBoardAndSteps 3 4).board.length
        = ((resetBoardAndSteps 3 4).sizeX * (resetBoardAndSteps 3 4).sizeY).toNat
    ∧ (resetBoardAndSteps 3 4).board[(cellIndex (resetBoardAndSteps 3 4) ⟨2, 3⟩).toNat]?
        = some (getFieldVal (resetBoardAndSteps 3 4) ⟨2, 3⟩)
    ∧ (checkValid (resetBoardAndSteps 3 4) ⟨3, 0⟩ = false
        ∧ getFieldVal (resetBoardAndSteps 3 4) ⟨3, 0⟩ = true) :=
  ⟨by decide, by decide,
    ((board_reads (resetBoardAndSteps 3 4) ⟨2, 3⟩).2.2 (by decide)).2.2 (by decide),
    by decide, (board_reads (resetBoardAndSteps 3 4) ⟨3, 0⟩).2.1 (by decide)⟩

theorem foldl_count (p : Nat → Bool) (l : List Nat) :
    ∀ init : Int,
      l.foldl (fun (result : Int) (i : Nat) => if p i then result + 1 else result) init
        = init + (l.countP p : Int) := by
  induction l with
  | nil => intro init; simp
  | cons a t ih =>
    intro init
    rw [List.foldl_cons, ih, List.countP_cons]
    by_cases h : p a = true
    · simp [h]; ring
    · simp [h]

theorem destinations_eq (sq : coord) :
    (List.range 8).map (fun i : Nat => getFieldByNumber sq (i : Int) 0)
      = baseOffsets.map (translate sq) := by
  have h : ∀ i : Nat, i < 8 →
      getFieldByNumber sq (i : Int) 0 = translate sq (baseOffsets.getD i ⟨0, 0⟩) := by
    intro i hi
    apply getFieldByNumber_base sq i 0 (by omega) i hi
    simp only [Nat.cast_zero, ge_iff_le]
    rw [if_neg (by omega)]
    omega
  have hr : List.range 8 = [0, 1, 2, 3, 4, 5, 6, 7] := by decide
  rw [hr]
  simp only [List.map_cons, List.map_nil]
  rw [h 0 (by omega), h 1 (by omega), h 2 (by omega), h 3 (by omega), h 4 (by omega),
    h 5 (by omega), h 6 (by omega), h 7 (by omega)]
  rfl

/-- C14. Onward count: for every board state and every square, `countPossibleSteps(sq)` is the
number of the eight knight destinations of `sq` that are on-board and unvisited, hence between
0 and 8; the function only reads the globals (it returns a number, no new state). -/
theorem countPossibleSteps_is_onwardCount (g : Globals) (sq : coord) :
    countPossibleSteps g sq = (onwardCount g sq : Int)
    ∧ 0 ≤ countPossibleSteps g sq ∧ countPossibleSteps g sq ≤ 8 := by
  have hc : countPossibleSteps g sq = (onwardCount g sq : Int) := by
    unfold countPossibleSteps
    have := foldl_count (fun i : Nat => !getFieldVal g (getFieldByNumber sq (i : Int) 0))
      (List.range 8) 0
    simp only [zero_add] at this
    rw [this]
    congr 1
    have hmap : List.countP (fun i : Nat => !getFieldVal g (getFieldByNumber sq (i : Int) 0))
        (List.range 8)
        = List.countP (fun p => !getFieldVal g p)
          ((List.range 8).map (fun i : Nat => getFieldByNumber sq (i : Int) 0)) := by
      rw [List.countP_map]; rfl
    rw [hmap, destinations_eq, List.countP_map]
    unfold onwardCount
    apply List.countP_congr
    intro d _
    simp only [Function.comp, getFieldVal]
    by_cases hv : checkValid g (translate sq d) = true
    · simp [hv]
    · simp [hv]
  refine ⟨hc, by rw [hc]; omega, ?_⟩
  rw [hc]
  have : onwardCount g sq ≤ baseOffsets.length := List.countP_le_length _
  have hl : baseOffsets.length = 8 := rfl
  omega

/-! ## The search engine in an arbitrary board state -/

theorem setFieldVal_restore_board (g : Globals) (pos : coord)
    (hb : g.board.length = (g.sizeX * g.sizeY).toNat)
    (hv : checkValid g pos = true) (hf : getFieldVal g pos = false) :
    setFieldVal (setFieldVal g pos true) pos false = g := by
  unfold getFieldVal at hf
  rw [if_pos hv] at hf
  have h1 : (cellIndex g pos).toNat < g.board.length := by
    rw [hb]; exact cellIndex_toNat_lt g pos hv
  have := store_restore g.board (cellIndex g pos) false (cellIndex_nonneg g pos hv) h1 hf true
  cases g
  simp only [setFieldVal, cellIndex] at this ⊢
  simp [this]

theorem unvisited_setFieldVal_board (g : Globals) (pos : coord)
    (hb : g.board.length = (g.sizeX * g.sizeY).toNat)
    (hv : checkValid g pos = true) (hf : getFieldVal g pos = false) :
    unvisited (setFieldVal g pos true) + 1 = unvisited g := by
  unfold getFieldVal at hf
  rw [if_pos hv] at hf
  have h1 : (cellIndex g pos).toNat < g.board.length := by
    rw [hb]; exact cellIndex_toNat_lt g pos hv
  exact count_store_true g.board (cellIndex g pos) (cellIndex_nonneg g pos hv) h1 hf

theorem tryFollowingSteps_general (call : Globals → coord → Except Err (Bool × Globals))
    (pos : coord) (counter : Int) (fuel : Nat) (g1 : Globals)
    (hcall : ∀ p, getFieldVal g1 p = false → GeneralPost fuel g1 (counter + 1) (call g1 p))
    (cands : List extCoord)
    (hc : ∀ c ∈ cands, c.possibleSteps ≠ -1 → getFieldVal g1 c.position = false) :
    GeneralLoopPost fuel g1 pos counter (tryFollowingSteps call pos counter g1 cands) := by
  induction cands with
  | nil => simp [tryFollowingSteps, GeneralLoopPost]
  | cons c rest ih =>
    have ih2 := ih (fun d hd => hc d (List.mem_cons_of_mem _ hd))
    rw [tryFollowingSteps]
    by_cases hps : c.possibleSteps ≠ -1
    · rw [if_pos hps]
      have hp := hcall c.position (hc c (List.mem_cons_self _ _) hps)
      cases hres : call g1 c.position with
      | error e =>
        rw [hres] at hp
        simpa [GeneralLoopPost, GeneralPost] using hp
      | ok r =>
        obtain ⟨b, g'⟩ := r
        rw [hres] at hp
        cases b with
        | true =>
          simp only [GeneralPost] at hp
          obtain ⟨hlt, hsx, hsy, hbl⟩ := hp
          have hlt' : counter < g'.sizeX * g'.sizeY := by rw [hsx, hsy]; omega
          simp only [addStepToSteps, if_pos hlt', GeneralLoopPost]
          exact ⟨hlt, hsx, hsy, hbl⟩
        | false =>
          simp only [GeneralPost] at hp
          subst hp
          exact ih2
    · rw [if_neg hps]
      exact ih2

/-- The contract of `backTrackingAlgorithm` called on an unvisited on-board square, whatever the
rest of the board, the counter, the target and the modifier. -/
theorem backTrackingAlgorithm_general (qsort : List extCoord → List extCoord)
    (hq : ∀ l, (qsort l).Perm l) (final : coord) (modifier : Int) :
    ∀ (fuel : Nat) (g : Globals) (pos : coord) (counter : Int),
      g.board.length = (g.sizeX * g.sizeY).toNat → checkValid g pos = true →
      getFieldVal g pos = false →
      GeneralPost fuel g counter
        (backTrackingAlgorithm qsort fuel g pos final counter modifier) := by
  intro fuel
  induction fuel with
  | zero =>
    intro g pos counter hb hv hf
    have hu := unvisited_setFieldVal_board g pos hb hv hf
    simp only [backTrackingAlgorithm, GeneralPost, true_and]
    omega
  | succ fuel ih =>
    intro g pos counter hb hv hf
    have hu := unvisited_setFieldVal_board g pos hb hv hf
    have hrest := setFieldVal_restore_board g pos hb hv hf
    have hb1 : (setFieldVal g pos true).board.length
        = ((setFieldVal g pos true).sizeX * (setFieldVal g pos true).sizeY).toNat := by
      simp [setFieldVal, length_store, hb]
    have hbl : (setFieldVal g pos true).board.length = g.board.length := by
      simp [setFieldVal, length_store]
    rw [backTrackingAlgorithm]
    by_cases hterm : counter = g.sizeX * g.sizeY - 1
    · simp only [setFieldVal, hterm, if_true]
      by_cases hfin : reachesFinal pos final = true
      · rw [if_pos hfin]
        have hlt : g.sizeX * g.sizeY - 1 < g.sizeX * g.sizeY := by omega
        simp only [addStepToSteps, if_pos hlt, GeneralPost]
        exact ⟨hlt, trivial, trivial, by simp [length_store]⟩
      · rw [if_neg hfin]
        simp only [GeneralPost]
        exact hrest
    · have hterm' :
          ¬ counter = (setFieldVal g pos true).sizeX * (setFieldVal g pos true).sizeY - 1 := hterm
      simp only [if_neg hterm']
      have hperm := hq ((List.range 8).map (followingStep (setFieldVal g pos true) pos modifier))
      have hcands : ∀ c ∈ qsort ((List.range 8).map
          (followingStep (setFieldVal g pos true) pos modifier)),
          c.possibleSteps ≠ -1 → getFieldVal (setFieldVal g pos true) c.position = false := by
        intro c hc hps
        rw [hperm.mem_iff, List.mem_map] at hc
        obtain ⟨i, -, rfl⟩ := hc
        exact (followingStep_cand _ pos modifier i hps).1
      have hcall : ∀ p, getFieldVal (setFieldVal g pos true) p = false →
          GeneralPost fuel (setFieldVal g pos true) (counter + 1)
            (backTrackingAlgorithm qsort fuel (setFieldVal g pos true) p final (counter + 1)
              modifier) := by
        intro p hp
        exact ih _ p (counter + 1) hb1 (getFieldVal_false_valid _ p hp) hp
      have hloop := tryFollowingSteps_general
        (fun g' next => backTrackingAlgorithm qsort fuel g' next final (counter + 1) modifier)
        pos counter fuel (setFieldVal g pos true) hcall _ hcands
      revert hloop
      cases tryFollowingSteps
        (fun g' next => backTrackingAlgorithm qsort fuel g' next final (counter + 1) modifier)
        pos counter (setFieldVal g pos true)
        (qsort ((List.range 8).map (followingStep (setFieldVal g pos true) pos modifier))) with
      | error e =>
        simp only [GeneralLoopPost, GeneralPost]
        rintro ⟨h1, h2⟩
        exact ⟨h1, by omega⟩
      | ok r =>
        obtain ⟨b, g'⟩ := r
        cases b with
        | false =>
          simp only [GeneralLoopPost, GeneralPost]
          intro h1
          rw [h1, hrest]
        | true =>
          simp only [GeneralLoopPost, GeneralPost]
          rintro ⟨h1, h2, h3, h4⟩
          refine ⟨?_, h2, h3, by rw [h4, hbl]⟩
          have : (setFieldVal g pos true).sizeX * (setFieldVal g pos true).sizeY
              = g.sizeX * g.sizeY := rfl
          omega

theorem tryFollowingSteps_mono (call call' : Globals → coord → Except Err (Bool × Globals))
    (pos : coord) (counter : Int)
    (h : ∀ g p r, call g p = .ok r → call' g p = .ok r) :
    ∀ (cands : List extCoord) (g : Globals) (r : Bool × Globals),
      tryFollowingSteps call pos counter g cands = .ok r →
      tryFollowingSteps call' pos counter g cands = .ok r := by
  intro cands
  induction cands with
  | nil => intro g r hr; simpa [tryFollowingSteps] using hr
  | cons c rest ih =>
    intro g r hr
    rw [tryFollowingSteps] at hr ⊢
    by_cases hps : c.possibleSteps ≠ -1
    · rw [if_pos hps] at hr ⊢
      cases hres : call g c.position with
      | error e => rw [hres] at hr; simp at hr
      | ok r2 =>
        rw [hres] at hr
        rw [h g c.position r2 hres]
        obtain ⟨b, g'⟩ := r2
        cases b with
        | true => exact hr
        | false => exact ih g' r hr
    · rw [if_neg hps] at hr ⊢
      exact ih g r hr

theorem backTrackingAlgorithm_fuel_succ (qsort : List extCoord → List extCoord)
    (final : coord) (modifier : Int) :
    ∀ (fuel : Nat) (g : Globals) (pos : coord) (counter : Int) (r : Bool × Globals),
      backTrackingAlgorithm qsort fuel g pos final counter modifier = .ok r →
      backTrackingAlgorithm qsort (fuel + 1) g pos final counter modifier = .ok r := by
  intro fuel
  induction fuel with
  | zero => intro g pos counter r hr; simp [backTrackingAlgorithm] at hr
  | succ fuel ih =>
    intro g pos counter r hr
    rw [backTrackingAlgorithm] at hr ⊢
    by_cases hterm :
        counter = (setFieldVal g pos true).sizeX * (setFieldVal g pos true).sizeY - 1
    · simp only [if_pos hterm] at hr ⊢
      exact hr
    · simp only [if_neg hterm] at hr ⊢
      exact tryFollowingSteps_mono _ _ pos counter
        (fun g' p r' hr' => ih g' p (counter + 1) r' hr') _ _ r hr

theorem backTrackingAlgorithm_fuel_le (qsort : List extCoord → List extCoord)
    (final : coord) (modifier : Int) (g : Globals) (pos : coord) (counter : Int)
    (r : Bool × Globals) (fuel : Nat)
    (h : backTrackingAlgorithm qsort fuel g pos final counter modifier = .ok r) :
    ∀ more : Nat, backTrackingAlgorithm qsort (fuel + more) g pos final counter modifier
      = .ok r := by
  intro more
  induction more with
  | zero => exact h
  | succ k ih => exact backTrackingAlgorithm_fuel_succ qsort final modifier _ g pos counter r ih

/-- With fuel for as many nested calls as there are unvisited squares the call returns, and
more fuel does not change what it returns. -/
theorem backTrackingAlgorithm_total (qsort : List extCoord → List extCoord)
    (hq : ∀ l, (qsort l).Perm l) (final : coord) (modifier : Int) (g : Globals) (pos : coord)
    (counter : Int) (hb : g.board.length = (g.sizeX * g.sizeY).toNat)
    (hv : checkValid g pos = true) (hf : getFieldVal g pos = false) :
    ∃ r : Bool × Globals, ∀ fuel, unvisited g ≤ fuel →
      backTrackingAlgorithm qsort fuel g pos final counter modifier = .ok r := by
  have hpost := backTrackingAlgorithm_general qsort hq final modifier (unvisited g) g pos counter
    hb hv hf
  revert hpost
  cases hres : backTrackingAlgorithm qsort (unvisited g) g pos final counter modifier with
  | error e =>
    simp only [GeneralPost]
    rintro ⟨-, h⟩
    omega
  | ok r =>
    intro _
    refine ⟨r, ?_⟩
    intro fuel hfuel
    obtain ⟨k, rfl⟩ := Nat.exists_eq_add_of_le hfuel
    exact backTrackingAlgorithm_fuel_le qsort final modifier g pos counter r _ hres k

/-- C17. Backtracking restores the board: for every board state, every on-board square that is
unvisited before the call, and every target, counter and modifier, if
`backTrackingAlgorithm(pos, target, counter, modifier)` returns false then the globals after
the call, the visited flag of every square among them, are those before the call. -/
theorem false_result_restores_board (qsort : List extCoord → List extCoord)
    (hq : ∀ l, (qsort l).Perm l) (g : Globals)
    (hb : g.board.length = (g.sizeX * g.sizeY).toNat) (pos : coord)
    (hv : checkValid g pos = true) (hf : getFieldVal g pos = false)
    (final : coord) (counter modifier : Int) (fuel : Nat) (g' : Globals)
    (h : backTrackingAlgorithm qsort fuel g pos final counter modifier = .ok (false, g')) :
    g' = g ∧ ∀ p, getFieldVal g' p = getFieldVal g p := by
  have hpost := backTrackingAlgorithm_general qsort hq final modifier fuel g pos counter hb hv hf
  rw [h] at hpost
  simp only [GeneralPost] at hpost
  subst hpost
  exact ⟨rfl, fun _ => rfl⟩

theorem false_result_restores_board_witness :
    (∀ l, (sortByKey (fun c => c.possibleSteps) l).Perm l)
    ∧ (resetBoardAndSteps 3 3).board.length
        = ((resetBoardAndSteps 3 3).sizeX * (resetBoardAndSteps 3 3).sizeY).toNat
    ∧ checkValid (resetBoardAndSteps 3 3) ⟨0, 0⟩ = true
    ∧ getFieldVal (resetBoardAndSteps 3 3) ⟨0, 0⟩ = false
    ∧ backTrackingAlgorithm (sortByKey (fun c => c.possibleSteps)) 9 (resetBoardAndSteps 3 3)
        ⟨0, 0⟩ invalid 0 0 = .ok (false, resetBoardAndSteps 3 3)
    ∧ (resetBoardAndSteps 3 3 = resetBoardAndSteps 3 3
      ∧ ∀ p, getFieldVal (resetBoardAndSteps 3 3) p = getFieldVal (resetBoardAndSteps 3 3) p) :=
  ⟨sortByKey_perm _, by decide, by decide, by decide, by rfl,
    false_result_restores_board (sortByKey (fun c => c.possibleSteps)) (sortByKey_perm _)
      (resetBoardAndSteps 3 3) (by decide) ⟨0, 0⟩ (by decide) (by decide) invalid 0 0 9 _
      (by rfl)⟩

/-- C19. Termination: for every board state (of a board with `sizeX ≥ 1`, `sizeY ≥ 1`, as an
on-board square requires), every on-board unvisited square and every target, counter and
modifier, `backTrackingAlgorithm` returns: there is one result that the call yields for every
fuel of at least the number of unvisited squares, which is at most `sizeX * sizeY`; so the
nesting depth of the calls never exceeds `sizeX * sizeY`. -/
theorem search_terminates (qsort : List extCoord → List extCoord)
    (hq : ∀ l, (qsort l).Perm l) (g : Globals)
    (hb : g.board.length = (g.sizeX * g.sizeY).toNat) (pos : coord)
    (hv : checkValid g pos = true) (hf : getFieldVal g pos = false)
    (final : coord) (counter modifier : Int) :
    unvisited g ≤ (g.sizeX * g.sizeY).toNat
    ∧ ∃ r : Bool × Globals, ∀ fuel, unvisited g ≤ fuel →
        backTrackingAlgorithm qsort fuel g pos final counter modifier = .ok r := by
  constructor
  · rw [← hb]; exact List.count_le_length _ _
  · exact backTrackingAlgorithm_total qsort hq final modifier g pos counter hb hv hf

theorem search_terminates_witness :
    (∀ l, (sortByKey (fun c => c.possibleSteps) l).Perm l)
    ∧ (resetBoardAndSteps 3 4).board.length
        = ((resetBoardAndSteps 3 4).sizeX * (resetBoardAndSteps 3 4).sizeY).toNat
    ∧ checkValid (resetBoardAndSteps 3 4) ⟨0, 0⟩ = true
    ∧ getFieldVal (resetBoardAndSteps 3 4) ⟨0, 0⟩ = false
    ∧ (unvisited (resetBoardAndSteps 3 4)
          ≤ ((resetBoardAndSteps 3 4).sizeX * (resetBoardAndSteps 3 4).sizeY).toNat
      ∧ ∃ r : Bool × Globals, ∀ fuel, unvisited (resetBoardAndSteps 3 4) ≤ fuel →
          backTrackingAlgorithm (sortByKey (fun c => c.possibleSteps)) fuel
            (resetBoardAndSteps 3 4) ⟨0, 0⟩ invalid 7 2 = .ok r) :=
  ⟨sortByKey_perm _, by decide, by decide, by decide,
    search_terminates (sortByKey (fun c => c.possibleSteps)) (sortByKey_perm _)
      (resetBoardAndSteps 3 4) (by decide) ⟨0, 0⟩ (by decide) (by decide) invalid 7 2⟩

/-- C20, as amended. Rotation does not change the answer: on an all-unvisited board, for an
on-board start square, any target and any two modifiers `r1, r2` between 0 and 2147483641 (so
that the sum of line 74 of `getFieldByNumber` is at most `2^31`), the calls
`backTrackingAlgorithm(start, target, 0, r1)` and `backTrackingAlgorithm(start, target, 0, r2)`
return the same truth value (given fuel for `sizeX * sizeY` nested calls); the globals they
leave may differ. -/
theorem rotation_same_answer (qsort : List extCoord → List extCoord)
    (hq : ∀ l, (qsort l).Perm l) (g : Globals)
    (hb : g.board = List.replicate (g.sizeX * g.sizeY).toNat false)
    (hs : g.steps.length = (g.sizeX * g.sizeY).toNat)
    (start target : coord) (hv : checkValid g start = true)
    (r1 r2 : Int) (h1 : 0 ≤ r1) (h2 : 0 ≤ r2) (hb1 : r1 ≤ 2147483641) (hb2 : r2 ≤ 2147483641)
    (fuel : Nat) (hfuel : (g.sizeX * g.sizeY).toNat ≤ fuel) :
    ∃ (b : Bool) (g1 g2 : Globals),
      backTrackingAlgorithm qsort fuel g start target 0 r1 = .ok (b, g1)
      ∧ backTrackingAlgorithm qsort fuel g start target 0 r2 = .ok (b, g2) := by
  have hu := unvisited_blank g hb
  have hf := getFieldVal_blank g hb start hv
  have hN : 0 ≤ g.sizeX * g.sizeY := by
    have := cellIndex_nonneg g start hv
    have := cellIndex_lt g start hv
    omega
  have hcn : (0 : Int) + (unvisited g : Int) = g.sizeX * g.sizeY := by
    rw [hu, Int.toNat_of_nonneg hN]; simp
  have hp1 := backTrackingAlgorithm_post qsort hq target r1 h1 hb1 fuel g start 0
    (wellSized_blank g hb hs) hv hf hcn
  have hp2 := backTrackingAlgorithm_post qsort hq target r2 h2 hb2 fuel g start 0
    (wellSized_blank g hb hs) hv hf hcn
  revert hp1 hp2
  cases backTrackingAlgorithm qsort fuel g start target 0 r1 with
  | error e =>
    simp only [Post]
    rintro ⟨-, h⟩
    omega
  | ok ra =>
    cases backTrackingAlgorithm qsort fuel g start target 0 r2 with
    | error e =>
      simp only [Post]
      rintro - ⟨-, h⟩
      omega
    | ok rb =>
      obtain ⟨b1, g1⟩ := ra
      obtain ⟨b2, g2⟩ := rb
      cases b1 <;> cases b2
      · intro _ _; exact ⟨false, g1, g2, rfl, rfl⟩
      · simp only [Post]
        rintro ⟨-, hne⟩ ⟨rest, hc, -⟩
        exact absurd ⟨rest, hc⟩ hne
      · simp only [Post]
        rintro ⟨rest, hc, -⟩ ⟨-, hne⟩
        exact absurd ⟨rest, hc⟩ hne
      · intro _ _; exact ⟨true, g1, g2, rfl, rfl⟩

theorem rotation_same_answer_witness :
    (∀ l, (sortByKey (fun c => c.possibleSteps) l).Perm l)
    ∧ (resetBoardAndSteps 3 4).board
        = List.replicate ((resetBoardAndSteps 3 4).sizeX * (resetBoardAndSteps 3 4).sizeY).toNat
            false
    ∧ checkValid (resetBoardAndSteps 3 4) ⟨0, 0⟩ = true
    ∧ ((0 : Int) ≤ 0 ∧ (0 : Int) ≤ 2147483641)
    ∧ ((0 : Int) ≤ 2147483641 ∧ (2147483641 : Int) ≤ 2147483641)
    ∧ ((resetBoardAndSteps 3 4).sizeX * (resetBoardAndSteps 3 4).sizeY).toNat ≤ 12
    ∧ ∃ (b : Bool) (g1 g2 : Globals),
        backTrackingAlgorithm (sortByKey (fun c => c.possibleSteps)) 12 (resetBoardAndSteps 3 4)
          ⟨0, 0⟩ invalid 0 0 = .ok (b, g1)
        ∧ backTrackingAlgorithm (sortByKey (fun c => c.possibleSteps)) 12
          (resetBoardAndSteps 3 4) ⟨0, 0⟩ invalid 0 2147483641 = .ok (b, g2) :=
  ⟨sortByKey_perm _, rfl, by decide, ⟨by decide, by decide⟩, ⟨by decide, by decide⟩, by decide,
    rotation_same_answer (sortByKey (fun c => c.possibleSteps)) (sortByKey_perm _)
      (resetBoardAndSteps 3 4) (resetBoardAndSteps_blank 3 4) (resetBoardAndSteps_steps 3 4)
      ⟨0, 0⟩ invalid (by decide) 0 2147483641 (by decide) (by decide) (by decide) (by decide)
      12 (by decide)⟩

/-- C20 as stated fails at the largest `int`: on the 3x4 board from `(0,0)` the search returns
true with modifier 0 and false with modifier 2147483647, for which the sum of line 74 wraps
and `getFieldByNumber` produces only five of the eight knight moves. -/
theorem rotation_changes_answer_at_int_max :
    backTrackingAlgorithm (sortByKey (fun c => c.possibleSteps)) 12 (resetBoardAndSteps 3 4)
        ⟨0, 0⟩ invalid 0 0 = .ok (true, record3x4)
    ∧ backTrackingAlgorithm (sortByKey (fun c => c.possibleSteps)) 12 (resetBoardAndSteps 3 4)
        ⟨0, 0⟩ invalid 0 2147483647 = .ok (false, resetBoardAndSteps 3 4) :=
  ⟨by rfl, by rfl⟩

/-! ## Range of the writes -/

theorem tryFollowingStepsLogged_fst
    (callL : Globals → coord → Except Err (Bool × Globals) × List WriteCall)
    (call : Globals → coord → Except Err (Bool × Globals))
    (h : ∀ g p, (callL g p).1 = call g p) (pos : coord) (counter : Int) :
    ∀ (cands : List extCoord) (g : Globals),
      (tryFollowingStepsLogged callL pos counter g cands).1
        = tryFollowingSteps call pos counter g cands := by
  intro cands
  induction cands with
  | nil => intro g; rfl
  | cons c rest ih =>
    intro g
    rw [tryFollowingStepsLogged, tryFollowingSteps]
    by_cases hps : c.possibleSteps ≠ -1
    · rw [if_pos hps, if_pos hps, ← h g c.position]
      rcases hres : callL g c.position with ⟨r, log⟩
      cases r with
      | error e => rfl
      | ok r2 =>
        obtain ⟨b, g'⟩ := r2
        cases b with
        | true => rfl
        | false => exact ih g'
    · rw [if_neg hps, if_neg hps]
      exact ih g

/-- The logged search engine computes what the search engine computes. -/
theorem backTrackingAlgorithmLogged_fst (qsort : List extCoord → List extCoord)
    (final : coord) (modifier : Int) :
    ∀ (fuel : Nat) (g : Globals) (pos : coord) (counter : Int),
      (backTrackingAlgorithmLogged qsort fuel g pos final counter modifier).1
        = backTrackingAlgorithm qsort fuel g pos final counter modifier := by
  intro fuel
  induction fuel with
  | zero => intro g pos counter; rfl
  | succ fuel ih =>
    intro g pos counter
    rw [backTrackingAlgorithmLogged, backTrackingAlgorithm]
    by_cases hterm :
        counter = (setFieldVal g pos true).sizeX * (setFieldVal g pos true).sizeY - 1
    · simp only [if_pos hterm]
      by_cases hfin : reachesFinal pos final = true
      · simp only [if_pos hfin]
      · simp only [if_neg hfin]
    · simp only [if_neg hterm]
      exact tryFollowingStepsLogged_fst _ _ (fun g' p => ih g' p (counter + 1)) pos counter _ _

theorem tryFollowingStepsLogged_inRange
    (callL : Globals → coord → Except Err (Bool × Globals) × List WriteCall)
    (pos : coord) (counter : Int) (fuel : Nat) (g1 : Globals)
    (hv : checkValid g1 pos = true)
    (hcall : ∀ p, getFieldVal g1 p = false →
      GeneralPost fuel g1 (counter + 1) (callL g1 p).1
        ∧ ∀ w ∈ (callL g1 p).2, WriteInRange g1 w)
    (cands : List extCoord)
    (hc : ∀ c ∈ cands, c.possibleSteps ≠ -1 → getFieldVal g1 c.position = false) :
    ∀ w ∈ (tryFollowingStepsLogged callL pos counter g1 cands).2, WriteInRange g1 w := by
  induction cands with
  | nil =>
    intro w hw
    simp only [tryFollowingStepsLogged, List.mem_singleton] at hw
    subst hw
    exact hv
  | cons c rest ih =>
    have ih2 := ih (fun d hd => hc d (List.mem_cons_of_mem _ hd))
    rw [tryFollowingStepsLogged]
    by_cases hps : c.possibleSteps ≠ -1
    · rw [if_pos hps]
      obtain ⟨hpost, hlog⟩ := hcall c.position (hc c (List.mem_cons_self _ _) hps)
      rcases hres : callL g1 c.position with ⟨r, log⟩
      rw [hres] at hpost hlog
      cases r with
      | error e => exact hlog
      | ok r2 =>
        obtain ⟨b, g'⟩ := r2
        cases b with
        | true =>
          simp only [GeneralPost] at hpost
          intro w hw
          simp only [List.mem_append, List.mem_singleton] at hw
          rcases hw with hw | rfl
          · exact hlog w hw
          · exact ⟨hv, by omega⟩
        | false =>
          simp only [GeneralPost] at hpost
          subst hpost
          intro w hw
          simp only [List.mem_append] at hw
          rcases hw with hw | hw
          · exact hlog w hw
          · exact ih2 w hw
    · rw [if_neg hps]
      exact ih2

/-- Every write of a call on an unvisited on-board square is in range, whatever the rest of
the board, the counter, the target and the modifier. -/
theorem backTrackingAlgorithmLogged_inRange (qsort : List extCoord → List extCoord)
    (hq : ∀ l, (qsort l).Perm l) (final : coord) (modifier : Int) :
    ∀ (fuel : Nat) (g : Globals) (pos : coord) (counter : Int),
      g.board.length = (g.sizeX * g.sizeY).toNat → checkValid g pos = true →
      getFieldVal g pos = false →
      ∀ w ∈ (backTrackingAlgorithmLogged qsort fuel g pos final counter modifier).2,
        WriteInRange g w := by
  intro fuel
  induction fuel with
  | zero =>
    intro g pos counter _ _ _ w hw
    simp [backTrackingAlgorithmLogged] at hw
  | succ fuel ih =>
    intro g pos counter hb hv hf
    have hb1 : (setFieldVal g pos true).board.length
        = ((setFieldVal g pos true).sizeX * (setFieldVal g pos true).sizeY).toNat := by
      simp [setFieldVal, length_store, hb]
    rw [backTrackingAlgorithmLogged]
    by_cases hterm :
        counter = (setFieldVal g pos true).sizeX * (setFieldVal g pos true).sizeY - 1
    · simp only [if_pos hterm]
      have hlt : counter < g.sizeX * g.sizeY := by
        have : (setFieldVal g pos true).sizeX * (setFieldVal g pos true).sizeY
            = g.sizeX * g.sizeY := rfl
        omega
      by_cases hfin : reachesFinal pos final = true
      · simp only [if_pos hfin]
        intro w hw
        simp only [List.mem_cons, List.mem_singleton, List.not_mem_nil, or_false] at hw
        rcases hw with rfl | rfl
        · exact hv
        · exact ⟨hv, hlt⟩
      · simp only [if_neg hfin]
        intro w hw
        simp only [List.mem_cons, List.mem_singleton, List.not_mem_nil, or_false] at hw
        rcases hw with rfl | rfl
        · exact hv
        · exact hv
    · simp only [if_neg hterm]
      have hperm := hq ((List.range 8).map (followingStep (setFieldVal g pos true) pos modifier))
      have hcands : ∀ c ∈ qsort ((List.range 8).map
          (followingStep (setFieldVal g pos true) pos modifier)),
          c.possibleSteps ≠ -1 → getFieldVal (setFieldVal g pos true) c.position = false := by
        intro c hc hps
        rw [hperm.mem_iff, List.mem_map] at hc
        obtain ⟨i, -, rfl⟩ := hc
        exact (followingStep_cand _ pos modifier i hps).1
      have hloop := tryFollowingStepsLogged_inRange
        (fun g' next =>
          backTrackingAlgorithmLogged qsort fuel g' next final (counter + 1) modifier)
        pos counter fuel (setFieldVal g pos true) hv
        (fun p hp => ⟨by
            rw [backTrackingAlgorithmLogged_fst]
            exact backTrackingAlgorithm_general qsort hq final modifier fuel _ p (counter + 1)
              hb1 (getFieldVal_false_valid _ p hp) hp,
          ih _ p (counter + 1) hb1 (getFieldVal_false_valid _ p hp) hp⟩)
        _ hcands
      intro w hw
      rcases List.mem_cons.1 hw with rfl | hw
      · exact hv
      · have := hloop w hw
        cases w with
        | setFieldVal p v => exact this
        | addStepToSteps p s => exact this

/-- C18. The hard-exit branch is unreachable and the writes stay in range: on an all-unvisited
board, for an on-board initial square (so `sizeX ≥ 1`, `sizeY ≥ 1`), in the execution of
`backTrackingAlgorithm` started with counter 0 (any target, modifier and fuel), the logged
search engine computes what `backTrackingAlgorithm` computes, the result is not `exit(1)`,
every call of `addStepToSteps` has a step below `sizeX * sizeY`, and every call of
`setFieldVal` and `addStepToSteps` is made with an on-board square. -/
theorem writes_stay_in_range (qsort : List extCoord → List extCoord)
    (hq : ∀ l, (qsort l).Perm l) (g : Globals)
    (hb : g.board = List.replicate (g.sizeX * g.sizeY).toNat false)
    (initial : coord) (hv : checkValid g initial = true)
    (final : coord) (modifier : Int) (fuel : Nat) :
    (backTrackingAlgorithmLogged qsort fuel g initial final 0 modifier).1
        = backTrackingAlgorithm qsort fuel g initial final 0 modifier
    ∧ backTrackingAlgorithm qsort fuel g initial final 0 modifier ≠ .error .exited
    ∧ ∀ w ∈ (backTrackingAlgorithmLogged qsort fuel g initial final 0 modifier).2,
        WriteInRange g w := by
  have hlen : g.board.length = (g.sizeX * g.sizeY).toNat := by rw [hb]; simp
  have hf := getFieldVal_blank g hb initial hv
  refine ⟨backTrackingAlgorithmLogged_fst qsort final modifier fuel g initial 0, ?_,
    backTrackingAlgorithmLogged_inRange qsort hq final modifier fuel g initial 0 hlen hv hf⟩
  have hpost := backTrackingAlgorithm_general qsort hq final modifier fuel g initial 0 hlen hv hf
  intro he
  rw [he] at hpost
  simp [GeneralPost] at hpost

set_option maxRecDepth 100000 in
theorem writes_stay_in_range_witness :
    (∀ l, (sortByKey (fun c => c.possibleSteps) l).Perm l)
    ∧ (resetBoardAndSteps 3 4).board
        = List.replicate ((resetBoardAndSteps 3 4).sizeX * (resetBoardAndSteps 3 4).sizeY).toNat
            false
    ∧ checkValid (resetBoardAndSteps 3 4) ⟨0, 0⟩ = true
    ∧ (backTrackingAlgorithmLogged (sortByKey (fun c => c.possibleSteps)) 12
          (resetBoardAndSteps 3 4) ⟨0, 0⟩ invalid 0 0).1 = .ok (true, record3x4)
    ∧ backTrackingAlgorithm (sortByKey (fun c => c.possibleSteps)) 12
          (resetBoardAndSteps 3 4) ⟨0, 0⟩ invalid 0 0 ≠ .error .exited
    ∧ ∀ w ∈ (backTrackingAlgorithmLogged (sortByKey (fun c => c.possibleSteps)) 12
          (resetBoardAndSteps 3 4) ⟨0, 0⟩ invalid 0 0).2,
        WriteInRange (resetBoardAndSteps 3 4) w :=
  ⟨sortByKey_perm _, rfl, by decide, by rfl,
    (writes_stay_in_range (sortByKey (fun c => c.possibleSteps)) (sortByKey_perm _)
      (resetBoardAndSteps 3 4) (resetBoardAndSteps_blank 3 4) ⟨0, 0⟩ (by decide) invalid 0 12).2⟩

/-! ## The comparator -/

theorem truncToInt_eq_zero (q : Rat) (h1 : -1 < q) (h2 : q < 1) : truncToInt q = 0 := by
  unfold truncToInt
  split
  · rename_i h0
    exact Int.floor_eq_zero_iff.2 ⟨h0, h2⟩
  · rename_i h0
    exact Int.ceil_eq_zero_iff.2 ⟨h1, le_of_lt (not_le.1 h0)⟩

/-- C16 (the code departs from the claim). On the 5x7 board, at the first node of the search
from `(0,0)`, the candidates `(1,2)` and `(2,1)` have the same onward count 5, and `(1,2)` is
strictly closer to the centre `(2,3)` than `(2,1)` (squared distances 2 and 4); yet for every
square root that is right to one decimal at 2 and at 4 the comparator returns 0, not a negative
number: the difference of the distances, about -0.59, is truncated to an `int`. -/
theorem compare_truncates_distance (sqrt : Rat → Rat)
    (h2 : 7 / 5 < sqrt 2 ∧ sqrt 2 < 3 / 2) (h4 : 19 / 10 < sqrt 4 ∧ sqrt 4 < 21 / 10) :
    followingStep (setFieldVal (resetBoardAndSteps 5 7) ⟨0, 0⟩ true) ⟨0, 0⟩ 0 4 = ⟨⟨1, 2⟩, 5⟩
    ∧ followingStep (setFieldVal (resetBoardAndSteps 5 7) ⟨0, 0⟩ true) ⟨0, 0⟩ 0 0 = ⟨⟨2, 1⟩, 5⟩
    ∧ centreDistSq (resetBoardAndSteps 5 7) ⟨1, 2⟩ < centreDistSq (resetBoardAndSteps 5 7) ⟨2, 1⟩
    ∧ compare sqrt (resetBoardAndSteps 5 7) ⟨⟨1, 2⟩, 5⟩ ⟨⟨2, 1⟩, 5⟩ = 0 := by
  refine ⟨by rfl, by rfl, ?_, ?_⟩
  · norm_num [centreDistSq, resetBoardAndSteps]
  · have ha : (((5 - 1 : Int) : Rat) / 2 - ((1 : Int) : Rat)) ^ 2
        + (((7 - 1 : Int) : Rat) / 2 - ((2 : Int) : Rat)) ^ 2 = 2 := by norm_num
    have hb : (((5 - 1 : Int) : Rat) / 2 - ((2 : Int) : Rat)) ^ 2
        + (((7 - 1 : Int) : Rat) / 2 - ((1 : Int) : Rat)) ^ 2 = 4 := by norm_num
    simp only [compare, resetBoardAndSteps, sub_self, if_true, ha, hb]
    apply truncToInt_eq_zero <;> linarith [h2.1, h2.2, h4.1, h4.2]

theorem compare_truncates_distance_witness :
    (7 / 5 < sqrtHeron 2 ∧ sqrtHeron 2 < 3 / 2)
    ∧ (19 / 10 < sqrtHeron 4 ∧ sqrtHeron 4 < 21 / 10)
    ∧ compare sqrtHeron (resetBoardAndSteps 5 7) ⟨⟨1, 2⟩, 5⟩ ⟨⟨2, 1⟩, 5⟩ = 0 :=
  ⟨by norm_num [sqrtHeron], by norm_num [sqrtHeron],
    (compare_truncates_distance sqrtHeron (by norm_num [sqrtHeron])
      (by norm_num [sqrtHeron])).2.2.2⟩

/-! ## The order of the recursive calls -/

end Springer
